import Mathlib

/-!
Verification of the core of the botok-rs Tibetan tokenizer: a shallow
embedding of the character categorizer, chunker, trie, longest-match
tokenizer and token post-processors, together with proofs of the
documented properties.

Rust strings are modelled as Lean `String`; Rust byte lengths
(`str::len`) are modelled by the UTF-8 byte count of the character
list; `HashMap` children of trie nodes are modelled as association
lists (key lookup finds the first matching key, and every mutation
keeps keys unique, matching hash-map semantics).
-/

namespace Botok

/-! ## Character categories (src/char_categories.rs) -/

/-- The character categories used by the tokenizer, from `CharCategory`. -/
inductive CharCategory where
  | Cons
  | SubCons
  | Vow
  | Tsek
  | NormalPunct
  | SpecialPunct
  | Numeral
  | Symbol
  | Transparent
  | SkrtVow
  | SkrtCons
  | SkrtSubCons
  | SkrtLongVow
  | InSylMark
  | Nfc
  | NonBoNonSkrt
  | Latin
  | Cjk
  | Other
  deriving DecidableEq

/-- `CharCategory::is_syllable_part`. -/
def CharCategory.is_syllable_part : CharCategory → Bool
  | .Cons | .SubCons | .Vow | .SkrtVow | .SkrtCons | .SkrtSubCons
  | .SkrtLongVow | .InSylMark | .Nfc | .NonBoNonSkrt => true
  | _ => false

/-- The `TRANSPARENT_CHARS` table from `char_categories.rs` (note that it
contains U+1680 OGHAM SPACE MARK in addition to the usual spaces). -/
def TRANSPARENT_CHARS : List Char :=
  [' ', '\t', '\n', '\r',
   '\u00A0', '\u1680',
   '\u2000', '\u2001', '\u2002', '\u2003', '\u2004', '\u2005',
   '\u2006', '\u2007', '\u2008', '\u2009', '\u200A', '\u200B',
   '\u202F', '\u205F', '\u3000', '\uFEFF']

/-- Modelled from the spec: the embedded Tibetan-block table
`src/data/bo_uni_table.csv` is not under `src/`; only its loader is.
Per the spec (§4.1, §6) it maps code points of U+0F00–U+0FFF to the
categories `CONS`, `SUB_CONS`, `VOW`, `TSEK`, `NORMAL_PUNCT`, ... with
unmapped points returning `Other`, and never to `Transparent` (which is
not a CSV category).  The entries below are the ones pinned down by the
spec's glossary and the repository's unit tests (tsek U+0F0B, shad
U+0F0D, the consonants and vowel signs used in the examples); all other
points of the block are modelled as `Other`. -/
def BO_UNI_TABLE : List (Char × CharCategory) :=
  [('་', .Tsek), ('།', .NormalPunct),
   ('ཀ', .Cons), ('ཁ', .Cons), ('ག', .Cons), ('ང', .Cons), ('ད', .Cons),
   ('ན', .Cons), ('པ', .Cons), ('བ', .Cons), ('མ', .Cons), ('ར', .Cons),
   ('ལ', .Cons), ('ས', .Cons), ('ཤ', .Cons), ('འ', .Cons),
   ('ི', .Vow), ('ུ', .Vow), ('ེ', .Vow), ('ོ', .Vow),
   ('ྲ', .SubCons), ('ྐ', .SubCons),
   ('༠', .Numeral), ('༡', .Numeral)]

/-- Lookup in the modelled Tibetan-block map (`CHAR_MAP.get`), `Other`
for unmapped points. -/
def charMap (c : Char) : CharCategory :=
  ((BO_UNI_TABLE.find? (fun p => p.1 = c)).map Prod.snd).getD .Other

/-- `get_char_category` from `char_categories.rs`: transparent table
first, then the Tibetan block, then Latin and CJK ranges, else Other. -/
def get_char_category (c : Char) : CharCategory :=
  if TRANSPARENT_CHARS.contains c then .Transparent
  else if 0xF00 ≤ c.toNat ∧ c.toNat ≤ 0xFFF then charMap c
  else if (0x20 ≤ c.toNat ∧ c.toNat ≤ 0x36F) ∨ (0x1E00 ≤ c.toNat ∧ c.toNat ≤ 0x20CF) then .Latin
  else if (0x4E00 ≤ c.toNat ∧ c.toNat ≤ 0x9FFF) ∨ (0x3400 ≤ c.toNat ∧ c.toNat ≤ 0x4DBF)
       ∨ (0x2E80 ≤ c.toNat ∧ c.toNat ≤ 0x2EFF) ∨ (0x3000 ≤ c.toNat ∧ c.toNat ≤ 0x303F) then .Cjk
  else .Other

/-- The transparent set as enumerated by the specification: ASCII
space, tab, CR, LF, NBSP, the Unicode spaces U+2000–U+200B, U+202F,
U+205F, U+3000 and U+FEFF (no U+1680). -/
def specTransparent (c : Char) : Prop :=
  c = ' ' ∨ c = '\t' ∨ c = '\r' ∨ c = '\n' ∨ c = '\u00A0'
  ∨ (0x2000 ≤ c.toNat ∧ c.toNat ≤ 0x200B)
  ∨ c.toNat = 0x202F ∨ c.toNat = 0x205F ∨ c.toNat = 0x3000 ∨ c.toNat = 0xFEFF

instance (c : Char) : Decidable (specTransparent c) := by
  unfold specTransparent; infer_instance

/-- The Tibetan-block map never yields `Transparent`. -/
theorem charMap_ne_transparent (c : Char) : charMap c ≠ .Transparent := by
  intro h
  unfold charMap at h
  cases hf : BO_UNI_TABLE.find? (fun p => p.1 = c) with
  | none => rw [hf] at h; simp at h
  | some p =>
    rw [hf] at h
    have hmem := List.mem_of_find?_eq_some hf
    have hall : ∀ q ∈ BO_UNI_TABLE, q.2 ≠ CharCategory.Transparent := by decide
    exact hall p hmem (by simpa using h)


/-- Helper: membership in the transparent table transfers along equal
code points. -/
theorem transparent_contains_of_toNat {c d : Char} {n : Nat} (h : c.toNat = n)
    (hd : d.toNat = n) (hmem : TRANSPARENT_CHARS.contains d = true) :
    TRANSPARENT_CHARS.contains c = true := by
  have hv : c.toNat = d.toNat := by rw [h, hd]
  have hcd : c = d := Char.ext (UInt32.ext hv)
  rw [hcd]; exact hmem

/-- The code's transparent table holds exactly the spec's enumeration
plus U+1680. -/
theorem transparent_chars_iff (c : Char) :
    TRANSPARENT_CHARS.contains c = true ↔ (specTransparent c ∨ c = '\u1680') := by
  constructor
  · intro h
    simp only [TRANSPARENT_CHARS, List.contains_cons, List.contains_nil, Bool.or_eq_true,
      beq_iff_eq, Bool.false_eq_true, or_false] at h
    rcases h with h|h|h|h|h|h|h|h|h|h|h|h|h|h|h|h|h|h|h|h|h|h
    all_goals subst h
    all_goals decide
  · intro h
    rcases h with h | h
    · unfold specTransparent at h
      rcases h with h|h|h|h|h|⟨h1,h2⟩|h|h|h|h
      · subst h; decide
      · subst h; decide
      · subst h; decide
      · subst h; decide
      · subst h; decide
      · interval_cases h : c.toNat
        · exact transparent_contains_of_toNat h (show ('\u2000' : Char).toNat = _ by decide) (by decide)
        · exact transparent_contains_of_toNat h (show ('\u2001' : Char).toNat = _ by decide) (by decide)
        · exact transparent_contains_of_toNat h (show ('\u2002' : Char).toNat = _ by decide) (by decide)
        · exact transparent_contains_of_toNat h (show ('\u2003' : Char).toNat = _ by decide) (by decide)
        · exact transparent_contains_of_toNat h (show ('\u2004' : Char).toNat = _ by decide) (by decide)
        · exact transparent_contains_of_toNat h (show ('\u2005' : Char).toNat = _ by decide) (by decide)
        · exact transparent_contains_of_toNat h (show ('\u2006' : Char).toNat = _ by decide) (by decide)
        · exact transparent_contains_of_toNat h (show ('\u2007' : Char).toNat = _ by decide) (by decide)
        · exact transparent_contains_of_toNat h (show ('\u2008' : Char).toNat = _ by decide) (by decide)
        · exact transparent_contains_of_toNat h (show ('\u2009' : Char).toNat = _ by decide) (by decide)
        · exact transparent_contains_of_toNat h (show ('\u200A' : Char).toNat = _ by decide) (by decide)
        · exact transparent_contains_of_toNat h (show ('\u200B' : Char).toNat = _ by decide) (by decide)
      · exact transparent_contains_of_toNat h (show ('\u202F' : Char).toNat = _ by decide) (by decide)
      · exact transparent_contains_of_toNat h (show ('\u205F' : Char).toNat = _ by decide) (by decide)
      · exact transparent_contains_of_toNat h (show ('\u3000' : Char).toNat = _ by decide) (by decide)
      · exact transparent_contains_of_toNat h (show ('\uFEFF' : Char).toNat = _ by decide) (by decide)
    · subst h; decide

/-- C9 (counterexample): U+1680 OGHAM SPACE MARK is categorized
`Transparent` by the code although it is not in the claim's closed set,
refuting the claimed "if and only if". -/
theorem transparent_set_counterexample :
    get_char_category '\u1680' = CharCategory.Transparent
      ∧ ¬ specTransparent '\u1680' := by
  constructor
  · decide
  · decide

/-- C9 (amended): for every code point c, the categorizer returns
`Transparent` if and only if c is in the claimed fixed set (ASCII
space, tab, CR, LF, NBSP, U+2000..U+200B, U+202F, U+205F, U+3000,
U+FEFF) or c is U+1680 OGHAM SPACE MARK; every other code point gets a
non-Transparent category. -/
theorem transparent_category_characterization (c : Char) :
    get_char_category c = CharCategory.Transparent
      ↔ (specTransparent c ∨ c = '\u1680') := by
  rw [← transparent_chars_iff c]
  unfold get_char_category
  by_cases hct : TRANSPARENT_CHARS.contains c = true
  · rw [if_pos hct]
    simp only [hct, iff_true]
  · rw [if_neg hct]
    constructor
    · intro h
      exfalso
      split at h
      · exact charMap_ne_transparent c h
      · split at h
        · exact absurd h (by simp)
        · split at h
          · exact absurd h (by simp)
          · exact absurd h (by simp)
    · intro h
      exact absurd h hct


/-! ## Chunker (src/chunker.rs) -/

/-- `ChunkType` from `token.rs`. -/
inductive ChunkType where
  | Text
  | Punct
  | Num
  | Sym
  | Latin
  | Cjk
  | Other
  deriving DecidableEq

/-- `Chunk` from `chunker.rs`: optional cleaned syllable, type, byte
start and byte length. -/
structure Chunk where
  syl : Option String
  chunk_type : ChunkType
  start : Nat
  len : Nat
  deriving DecidableEq

instance : Inhabited Chunk := ⟨⟨none, .Text, 0, 0⟩⟩

/-- Rust byte length (`str::len`) of a character list: total UTF-8 size. -/
def byteLenL (l : List Char) : Nat := (l.map Char.utf8Size).sum

/-- Rust byte length of a string. -/
def byteLen (s : String) : Nat := byteLenL s.data

theorem byteLenL_append (a b : List Char) :
    byteLenL (a ++ b) = byteLenL a + byteLenL b := by
  unfold byteLenL
  rw [List.map_append, List.sum_append]

theorem byteLenL_take_drop (n : Nat) (l : List Char) :
    byteLenL (l.take n) + byteLenL (l.drop n) = byteLenL l := by
  conv_rhs => rw [← List.take_append_drop n l]
  rw [byteLenL_append]

/-- The reading loop of `Chunker::read_syllable`: accumulates
syllable-part characters, stops after a tsek (consumed, excluded from
the syllable), skips transparent characters when more syllable content
follows, stops before anything else.  Returns the cleaned syllable
characters and the number of characters consumed. -/
def readSylChars : List Char → List Char × Nat
  | [] => ([], 0)
  | c :: rest =>
    let cat := get_char_category c
    if cat.is_syllable_part then
      let r := readSylChars rest
      (c :: r.1, r.2 + 1)
    else if cat = .Tsek then ([], 1)
    else if cat = .Transparent then
      match rest with
      | c' :: _ =>
        if (get_char_category c').is_syllable_part then
          let r := readSylChars rest
          (r.1, r.2 + 1)
        else ([], 1)
      | [] => ([], 1)
    else ([], 0)

/-- The shared reading loop of `read_punct`, `read_numbers`,
`read_symbols`, `read_latin` and `read_cjk`: the number of characters
consumed while the category is accepted or transparent. -/
def readRun (ok : CharCategory → Bool) : List Char → Nat
  | [] => 0
  | c :: rest =>
    let cat := get_char_category c
    if ok cat || cat == .Transparent then readRun ok rest + 1 else 0

theorem readSylChars_pos (c : Char) (rest : List Char)
    (h : (get_char_category c).is_syllable_part = true) :
    1 ≤ (readSylChars (c :: rest)).2 := by
  simp only [readSylChars, h, if_pos]
  omega

theorem readRun_pos (ok : CharCategory → Bool) (c : Char) (rest : List Char)
    (h : (ok (get_char_category c) || get_char_category c == .Transparent) = true) :
    1 ≤ readRun ok (c :: rest) := by
  simp only [readRun, h, if_pos]
  omega

/-- The body of `Chunker::make_chunks`: dispatch on the category of the
current character; `pos` is the byte offset of the first remaining
character and `acc` holds the chunks emitted so far in reverse order.
A transparent character at top level extends the previous chunk, or is
skipped when there is none. -/
def mkChunksLoop : List Char → Nat → List Chunk → List Chunk
  | [], _, acc => acc.reverse
  | c :: rest, pos, acc =>
    if h1 : (get_char_category c).is_syllable_part then
      let r := readSylChars (c :: rest)
      let b := byteLenL ((c :: rest).take r.2)
      mkChunksLoop ((c :: rest).drop r.2) (pos + b)
        (⟨if r.1.isEmpty then none else some ⟨r.1⟩, .Text, pos, b⟩ :: acc)
    else if get_char_category c = .Tsek then
      mkChunksLoop rest (pos + c.utf8Size) (⟨none, .Punct, pos, c.utf8Size⟩ :: acc)
    else if h2 : get_char_category c = .NormalPunct ∨ get_char_category c = .SpecialPunct then
      let n := readRun (fun k => k == .NormalPunct || k == .SpecialPunct) (c :: rest)
      let b := byteLenL ((c :: rest).take n)
      mkChunksLoop ((c :: rest).drop n) (pos + b) (⟨none, .Punct, pos, b⟩ :: acc)
    else if h3 : get_char_category c = .Numeral then
      let n := readRun (fun k => k == .Numeral) (c :: rest)
      let b := byteLenL ((c :: rest).take n)
      mkChunksLoop ((c :: rest).drop n) (pos + b) (⟨none, .Num, pos, b⟩ :: acc)
    else if h4 : get_char_category c = .Symbol then
      let n := readRun (fun k => k == .Symbol) (c :: rest)
      let b := byteLenL ((c :: rest).take n)
      mkChunksLoop ((c :: rest).drop n) (pos + b) (⟨none, .Sym, pos, b⟩ :: acc)
    else if get_char_category c = .Transparent then
      match acc with
      | last :: accRest =>
        mkChunksLoop rest (pos + c.utf8Size)
          ({ last with len := last.len + c.utf8Size } :: accRest)
      | [] => mkChunksLoop rest (pos + c.utf8Size) []
    else if h5 : get_char_category c = .Latin then
      let n := readRun (fun k => k == .Latin) (c :: rest)
      let b := byteLenL ((c :: rest).take n)
      mkChunksLoop ((c :: rest).drop n) (pos + b) (⟨none, .Latin, pos, b⟩ :: acc)
    else if h6 : get_char_category c = .Cjk then
      let n := readRun (fun k => k == .Cjk) (c :: rest)
      let b := byteLenL ((c :: rest).take n)
      mkChunksLoop ((c :: rest).drop n) (pos + b) (⟨none, .Cjk, pos, b⟩ :: acc)
    else
      mkChunksLoop rest (pos + c.utf8Size) (⟨none, .Other, pos, c.utf8Size⟩ :: acc)
termination_by l _ _ => l.length
decreasing_by
  all_goals simp only [List.length_drop, List.length_cons]
  · have := readSylChars_pos c rest h1
    omega
  · omega
  · have := readRun_pos (fun k => k == .NormalPunct || k == .SpecialPunct) c rest
      (by rcases h2 with h | h <;> simp [h])
    omega
  · have := readRun_pos (fun k => k == .Numeral) c rest (by simp [h3])
    omega
  · have := readRun_pos (fun k => k == .Symbol) c rest (by simp [h4])
    omega
  · omega
  · omega
  · have := readRun_pos (fun k => k == .Latin) c rest (by simp [h5])
    omega
  · have := readRun_pos (fun k => k == .Cjk) c rest (by simp [h6])
    omega
  · omega

/-- `Chunker::make_chunks` (after `BoString::new`): empty input gives no
chunks, otherwise run the dispatch loop from byte offset 0. -/
def make_chunks (s : String) : List Chunk :=
  if s.data.isEmpty then [] else mkChunksLoop s.data 0 []


/-! ### Chunk coverage (C2) -/

/-- Chunks tile the byte range from `p` to `q`: the first chunk starts
at `p`, consecutive chunks are contiguous, and the last ends at `q`
(so concatenating the chunks' byte slices reconstructs exactly the
bytes from `p` to `q`). -/
def chunksSpanB : List Chunk → Nat → Nat → Bool
  | [], p, q => p == q
  | ch :: rest, p, q => (ch.start == p) && chunksSpanB rest (p + ch.len) q

/-- Same tiling property for a reversed chunk list (the loop
accumulator). -/
def revSpanB : List Chunk → Nat → Nat → Bool
  | [], p, q => p == q
  | ch :: rest, p, q => (ch.start + ch.len == q) && revSpanB rest p ch.start

theorem byteLenL_cons (c : Char) (l : List Char) :
    byteLenL (c :: l) = c.utf8Size + byteLenL l := by
  simp [byteLenL]

theorem chunksSpanB_append {xs ys : List Chunk} {p m q : Nat}
    (hx : chunksSpanB xs p m = true) (hy : chunksSpanB ys m q = true) :
    chunksSpanB (xs ++ ys) p q = true := by
  induction xs generalizing p with
  | nil =>
    simp only [chunksSpanB, beq_iff_eq] at hx
    subst hx
    simpa using hy
  | cons ch rest ih =>
    simp only [chunksSpanB, Bool.and_eq_true, beq_iff_eq] at hx ⊢
    exact ⟨hx.1, ih hx.2⟩

theorem revSpanB_reverse {acc : List Chunk} {p q : Nat}
    (h : revSpanB acc p q = true) :
    chunksSpanB acc.reverse p q = true := by
  induction acc generalizing q with
  | nil =>
    simpa [chunksSpanB, revSpanB] using h
  | cons ch rest ih =>
    simp only [revSpanB, Bool.and_eq_true, beq_iff_eq] at h
    rw [List.reverse_cons]
    exact chunksSpanB_append (ih h.2)
      (by simp [chunksSpanB, h.1])

/-- Whenever the accumulator already tiles `p0 .. pos`, the rest of the
chunking loop extends the tiling to the end of the input: every
remaining byte lands in exactly one chunk. -/
theorem mkChunksLoop_span (l : List Char) (pos : Nat) (acc : List Chunk) (p0 : Nat)
    (hne : acc ≠ []) (hrev : revSpanB acc p0 pos = true) :
    chunksSpanB (mkChunksLoop l pos acc) p0 (pos + byteLenL l) = true := by
  induction l, pos, acc using mkChunksLoop.induct generalizing p0 with
  | case1 pos acc =>
    rw [mkChunksLoop]
    simpa [byteLenL] using revSpanB_reverse hrev
  | case2 c rest pos acc h1 r b ih =>
    rw [mkChunksLoop.eq_def]
    dsimp only
    rw [dif_pos h1]
    rw [← byteLenL_take_drop (readSylChars (c :: rest)).2 (c :: rest), ← Nat.add_assoc]
    exact ih p0 (by simp) (by simp [revSpanB, hrev])
  | case3 c rest pos acc h1 h2 ih =>
    rw [mkChunksLoop.eq_def]
    dsimp only
    rw [dif_neg h1, if_pos h2]
    rw [byteLenL_cons, ← Nat.add_assoc]
    exact ih p0 (by simp) (by simp [revSpanB, hrev])
  | case4 c rest pos acc h1 h2 h3 n b ih =>
    rw [mkChunksLoop.eq_def]
    dsimp only
    rw [dif_neg h1, if_neg h2, dif_pos h3]
    rw [← byteLenL_take_drop
      (readRun (fun k => k == .NormalPunct || k == .SpecialPunct) (c :: rest)) (c :: rest),
      ← Nat.add_assoc]
    exact ih p0 (by simp) (by simp [revSpanB, hrev])
  | case5 c rest pos acc h1 h2 h3 h4 n b ih =>
    rw [mkChunksLoop.eq_def]
    dsimp only
    rw [dif_neg h1, if_neg h2, dif_neg h3, dif_pos h4]
    rw [← byteLenL_take_drop (readRun (fun k => k == .Numeral) (c :: rest)) (c :: rest),
      ← Nat.add_assoc]
    exact ih p0 (by simp) (by simp [revSpanB, hrev])
  | case6 c rest pos acc h1 h2 h3 h4 h5 n b ih =>
    rw [mkChunksLoop.eq_def]
    dsimp only
    rw [dif_neg h1, if_neg h2, dif_neg h3, dif_neg h4, dif_pos h5]
    rw [← byteLenL_take_drop (readRun (fun k => k == .Symbol) (c :: rest)) (c :: rest),
      ← Nat.add_assoc]
    exact ih p0 (by simp) (by simp [revSpanB, hrev])
  | case7 c rest pos h1 h2 h3 h4 h5 h6 last accRest ih =>
    rw [mkChunksLoop.eq_def]
    dsimp only
    rw [dif_neg h1, if_neg h2, dif_neg h3, dif_neg h4, dif_neg h5, if_pos h6]
    rw [byteLenL_cons, ← Nat.add_assoc]
    simp only [revSpanB, Bool.and_eq_true, beq_iff_eq] at hrev
    refine ih p0 (by simp) ?_
    simp only [revSpanB, Bool.and_eq_true, beq_iff_eq]
    exact ⟨by have := hrev.1; omega, hrev.2⟩
  | case8 c rest pos h1 h2 h3 h4 h5 h6 ih =>
    exact absurd rfl hne
  | case9 c rest pos acc h1 h2 h3 h4 h5 h6 h7 n b ih =>
    rw [mkChunksLoop.eq_def]
    dsimp only
    rw [dif_neg h1, if_neg h2, dif_neg h3, dif_neg h4, dif_neg h5, if_neg h6, dif_pos h7]
    rw [← byteLenL_take_drop (readRun (fun k => k == .Latin) (c :: rest)) (c :: rest),
      ← Nat.add_assoc]
    exact ih p0 (by simp) (by simp [revSpanB, hrev])
  | case10 c rest pos acc h1 h2 h3 h4 h5 h6 h7 h8 n b ih =>
    rw [mkChunksLoop.eq_def]
    dsimp only
    rw [dif_neg h1, if_neg h2, dif_neg h3, dif_neg h4, dif_neg h5, if_neg h6, dif_neg h7,
      dif_pos h8]
    rw [← byteLenL_take_drop (readRun (fun k => k == .Cjk) (c :: rest)) (c :: rest),
      ← Nat.add_assoc]
    exact ih p0 (by simp) (by simp [revSpanB, hrev])
  | case11 c rest pos acc h1 h2 h3 h4 h5 h6 h7 h8 ih =>
    rw [mkChunksLoop.eq_def]
    dsimp only
    rw [dif_neg h1, if_neg h2, dif_neg h3, dif_neg h4, dif_neg h5, if_neg h6, dif_neg h7,
      dif_neg h8]
    rw [byteLenL_cons, ← Nat.add_assoc]
    exact ih p0 (by simp) (by simp [revSpanB, hrev])


/-- Starting the loop right after emitting a first chunk covering bytes
`pos .. pos+b` yields chunks tiling `pos .. pos+T` whenever the
remaining characters hold the other `T - b` bytes. -/
theorem span_from_first_chunk (l' : List Char) (pos b T : Nat) (sy : Option String)
    (ty : ChunkType) (htot : b + byteLenL l' = T) :
    chunksSpanB (mkChunksLoop l' (pos + b) [⟨sy, ty, pos, b⟩]) pos (pos + T) = true := by
  have h := mkChunksLoop_span l' (pos + b) [⟨sy, ty, pos, b⟩] pos (by simp)
    (by simp [revSpanB])
  rw [show pos + b + byteLenL l' = pos + T by omega] at h
  exact h

/-- Starting the chunking loop with an empty accumulator tiles the
bytes from the end of the leading transparent run to the end of the
input. -/
theorem mkChunksLoop_nil_span (l : List Char) (pos : Nat) :
    chunksSpanB (mkChunksLoop l pos [])
      (pos + byteLenL (l.takeWhile (fun c => get_char_category c == CharCategory.Transparent)))
      (pos + byteLenL l) = true := by
  induction l generalizing pos with
  | nil => simp [mkChunksLoop, chunksSpanB, byteLenL]
  | cons c rest ih =>
    by_cases htr : get_char_category c = CharCategory.Transparent
    · rw [mkChunksLoop.eq_def]
      dsimp only
      rw [dif_neg (by rw [htr]; decide), if_neg (by rw [htr]; decide),
        dif_neg (by rw [htr]; decide), dif_neg (by rw [htr]; decide),
        dif_neg (by rw [htr]; decide), if_pos htr]
      rw [List.takeWhile_cons_of_pos (by simp [htr])]
      rw [byteLenL_cons, byteLenL_cons, ← Nat.add_assoc, ← Nat.add_assoc]
      exact ih (pos + c.utf8Size)
    · rw [List.takeWhile_cons_of_neg (by simp [htr])]
      rw [show byteLenL ([] : List Char) = 0 from rfl, Nat.add_zero]
      rw [mkChunksLoop.eq_def]
      dsimp only
      by_cases h1 : (get_char_category c).is_syllable_part = true
      · rw [dif_pos h1]
        exact span_from_first_chunk _ pos _ _ _ _ (byteLenL_take_drop _ _)
      · rw [dif_neg h1]
        by_cases h2 : get_char_category c = CharCategory.Tsek
        · rw [if_pos h2]
          exact span_from_first_chunk _ pos _ _ _ _ (byteLenL_cons c rest).symm
        · rw [if_neg h2]
          by_cases h3 : get_char_category c = CharCategory.NormalPunct
              ∨ get_char_category c = CharCategory.SpecialPunct
          · rw [dif_pos h3]
            exact span_from_first_chunk _ pos _ _ _ _ (byteLenL_take_drop _ _)
          · rw [dif_neg h3]
            by_cases h4 : get_char_category c = CharCategory.Numeral
            · rw [dif_pos h4]
              exact span_from_first_chunk _ pos _ _ _ _ (byteLenL_take_drop _ _)
            · rw [dif_neg h4]
              by_cases h5 : get_char_category c = CharCategory.Symbol
              · rw [dif_pos h5]
                exact span_from_first_chunk _ pos _ _ _ _ (byteLenL_take_drop _ _)
              · rw [dif_neg h5, if_neg htr]
                by_cases h6 : get_char_category c = CharCategory.Latin
                · rw [dif_pos h6]
                  exact span_from_first_chunk _ pos _ _ _ _ (byteLenL_take_drop _ _)
                · rw [dif_neg h6]
                  by_cases h7 : get_char_category c = CharCategory.Cjk
                  · rw [dif_pos h7]
                    exact span_from_first_chunk _ pos _ _ _ _ (byteLenL_take_drop _ _)
                  · rw [dif_neg h7]
                    exact span_from_first_chunk _ pos _ _ _ _ (byteLenL_cons c rest).symm


/-- C2 (amended): for every (NFC-normalized) input string, the chunks
produced by `make_chunks` have contiguous byte ranges (each chunk
starts where the previous one ended) that cover the normalized input
from the end of its leading run of transparent characters to its last
byte; concatenating the chunks' byte slices therefore reconstructs
exactly the input minus any leading transparent characters (which the
chunker skips because there is no previous chunk to extend). -/
theorem make_chunks_cover (s : String) :
    chunksSpanB (make_chunks s)
      (byteLenL (s.data.takeWhile (fun c => get_char_category c == CharCategory.Transparent)))
      (byteLen s) = true := by
  unfold make_chunks byteLen
  by_cases h : s.data.isEmpty
  · rw [if_pos h]
    rw [List.isEmpty_iff.mp h]
    simp [chunksSpanB, byteLenL]
  · rw [if_neg h]
    have hm := mkChunksLoop_nil_span s.data 0
    simpa using hm

/-- C2 (counterexample): on the input consisting of an ASCII space
followed by a Latin letter, the chunker skips the leading transparent
space (there is no previous chunk to extend), so the single produced
chunk starts at byte 1 and the chunk ranges do not cover the input
from byte 0: concatenation does not reconstruct the leading space. -/
theorem make_chunks_cover_counterexample :
    make_chunks " a" = [⟨none, ChunkType.Latin, 1, 1⟩]
      ∧ chunksSpanB (make_chunks " a") 0 (byteLen " a") = false := by
  have h : make_chunks " a" = [⟨none, ChunkType.Latin, 1, 1⟩] := by
    simp +decide [make_chunks, mkChunksLoop, readRun, byteLenL]
  constructor
  · exact h
  · rw [h]
    decide


/-! ## Trie (src/trie.rs, src/token.rs data types) -/

/-- `Sense` from `token.rs` (`lemma_` models the Rust field `lemma`). -/
structure Sense where
  pos : Option String
  lemma_ : Option String
  freq : Option Nat
  sense : Option String
  meaning : Option String
  affixed : Bool
  deriving DecidableEq

/-- `Sense::default()`. -/
def Sense.default : Sense := ⟨none, none, none, none, none, false⟩

/-- `AffixInfo` from `trie.rs`. -/
structure AffixInfo where
  len : Nat
  affix_type : String
  aa : Bool
  deriving DecidableEq

/-- `WordData` from `trie.rs`. -/
structure WordData where
  pos : Option String
  lemma_ : Option String
  freq : Option Nat
  skrt : Bool
  affixation : Option AffixInfo
  senses : List Sense
  deriving DecidableEq

/-- `WordData::default()`. -/
def WordData.default : WordData := ⟨none, none, none, false, none, []⟩

/-- `TrieNode` from `trie.rs`; the `HashMap<String, TrieNode>` children
are modelled as an association list with unique keys. -/
inductive TrieNode where
  | mk (children : List (String × TrieNode)) (is_leaf : Bool) (data : Option WordData)

def TrieNode.children : TrieNode → List (String × TrieNode)
  | .mk c _ _ => c

def TrieNode.is_leaf : TrieNode → Bool
  | .mk _ l _ => l

def TrieNode.data : TrieNode → Option WordData
  | .mk _ _ d => d

/-- `TrieNode::new` / `TrieNode::default`. -/
def TrieNode.new : TrieNode := .mk [] false none

/-- `TrieNode::is_match`. -/
def TrieNode.is_match (n : TrieNode) : Bool := n.is_leaf

/-- `HashMap::get` on the children map. -/
def findChild (cs : List (String × TrieNode)) (s : String) : Option TrieNode :=
  (cs.find? (fun p => p.1 == s)).map Prod.snd

/-- `HashMap` insert-or-update on the children map: replaces the first
binding of the key, or appends a new one. -/
def setChild : List (String × TrieNode) → String → TrieNode → List (String × TrieNode)
  | [], s, n => [(s, n)]
  | (k, v) :: rest, s, n =>
    if k == s then (s, n) :: rest else (k, v) :: setChild rest s n

mutual

/-- The number of `is_leaf` nodes reachable from a node (the node
itself included). -/
def countLeaves : TrieNode → Nat
  | .mk cs leaf _ => (if leaf then 1 else 0) + countLeavesList cs

/-- Total leaf count over a children list. -/
def countLeavesList : List (String × TrieNode) → Nat
  | [] => 0
  | (_, n) :: rest => countLeaves n + countLeavesList rest

end

/-- `Trie` from `trie.rs`. -/
structure Trie where
  root : TrieNode
  word_count : Nat

/-- `Trie::new`. -/
def Trie.new : Trie := ⟨TrieNode.new, 0⟩

/-- `Trie::len`. -/
def Trie.len (t : Trie) : Nat := t.word_count

/-- The descent-and-insert loop shared by `Trie::add` (and
`add_word_and_get_node`): walks/creates the path, marks the final node
`is_leaf`, overwrites its data if provided; also returns whether the
final node was already a leaf (the Rust code increments `word_count`
only when it was not). -/
def addAux : TrieNode → List String → Option WordData → TrieNode × Bool
  | .mk cs leaf d, [], data =>
    (.mk cs true (match data with | some x => some x | none => d), leaf)
  | .mk cs leaf d, s :: restSyls, data =>
    let child := (findChild cs s).getD TrieNode.new
    let r := addAux child restSyls data
    (.mk (setChild cs s r.1) leaf d, r.2)

/-- `Trie::add`. -/
def Trie.add (t : Trie) (syls : List String) (data : Option WordData) : Trie :=
  let r := addAux t.root syls data
  ⟨r.1, t.word_count + (if r.2 then 0 else 1)⟩

/-- `word.split('་').filter(|s| !s.is_empty())`. -/
def splitSyls (word : String) : List String :=
  (word.splitOn "་").filter (fun s => s ≠ "")

/-- `Trie::add_word`. -/
def Trie.add_word (t : Trie) (word : String) (data : Option WordData) : Trie :=
  let syls := splitSyls word
  if syls.isEmpty then t else t.add syls data

/-- The descent of `Trie::add_word_with_sense`: installs the data when
absent, otherwise fills missing scalar fields, and always appends the
sense. -/
def addSenseAux : TrieNode → List String → WordData → Sense → TrieNode × Bool
  | .mk cs leaf d, [], data, sense =>
    let newData :=
      match d with
      | some ed =>
        some { ed with
          pos := if ed.pos.isNone && data.pos.isSome then data.pos else ed.pos
          lemma_ := if ed.lemma_.isNone && data.lemma_.isSome then data.lemma_ else ed.lemma_
          freq := if ed.freq.isNone && data.freq.isSome then data.freq else ed.freq
          senses := ed.senses ++ [sense] }
      | none => some { data with senses := data.senses ++ [sense] }
    (.mk cs true newData, leaf)
  | .mk cs leaf d, s :: restSyls, data, sense =>
    let child := (findChild cs s).getD TrieNode.new
    let r := addSenseAux child restSyls data sense
    (.mk (setChild cs s r.1) leaf d, r.2)

/-- `Trie::add_word_with_sense`. -/
def Trie.add_word_with_sense (t : Trie) (word : String) (data : WordData) (sense : Sense) : Trie :=
  let syls := splitSyls word
  if syls.isEmpty then t
  else
    let r := addSenseAux t.root syls data sense
    ⟨r.1, t.word_count + (if r.2 then 0 else 1)⟩

/-- The descent of `Trie::deactivate`: clears `is_leaf` of the final
node when the path exists and it is a leaf; returns whether it did. -/
def deactAux : TrieNode → List String → TrieNode × Bool
  | .mk cs leaf d, [] =>
    if leaf then (.mk cs false d, true) else (.mk cs leaf d, false)
  | .mk cs leaf d, s :: restSyls =>
    match findChild cs s with
    | none => (.mk cs leaf d, false)
    | some child =>
      let r := deactAux child restSyls
      (.mk (setChild cs s r.1) leaf d, r.2)

/-- `Trie::deactivate` (also returns the Rust method's boolean). -/
def Trie.deactivate (t : Trie) (syls : List String) : Trie × Bool :=
  let r := deactAux t.root syls
  (⟨r.1, t.word_count - (if r.2 then 1 else 0)⟩, r.2)

/-- `Trie::merge_nodes_recursive`: grafts the source children into the
target, counting nodes that become leaves; each source child that is a
leaf with data overwrites the target child's data. -/
def mergeChildren : TrieNode → List (String × TrieNode) → TrieNode × Nat
  | t, [] => (t, 0)
  | .mk cs leaf d, (syl, sc) :: rest =>
    let tc := (findChild cs syl).getD TrieNode.new
    let newLeaf := sc.is_leaf && !tc.is_leaf
    let tc1 := if newLeaf then TrieNode.mk tc.children true tc.data else tc
    let tc2 := if sc.is_leaf && sc.data.isSome then TrieNode.mk tc1.children tc1.is_leaf sc.data
      else tc1
    let r := mergeChildren tc2 sc.children
    let r2 := mergeChildren (TrieNode.mk (setChild cs syl r.1) leaf d) rest
    (r2.1, (if newLeaf then 1 else 0) + r.2 + r2.2)
termination_by t l => sizeOf l
decreasing_by
  · have hlt : sizeOf sc.children < sizeOf sc := by
      cases sc with
      | mk c l d => simp [TrieNode.children]; omega
    simp only [List.cons.sizeOf_spec, Prod.mk.sizeOf_spec]
    omega
  · simp only [List.cons.sizeOf_spec, Prod.mk.sizeOf_spec]
    omega

/-- `Trie::merge`. -/
def Trie.merge (t : Trie) (other : Trie) : Trie :=
  let r := mergeChildren t.root other.root.children
  ⟨r.1, t.word_count + r.2⟩

/-- `Trie::walk`: one-step descent from the given node (root when
absent). -/
def Trie.walk (t : Trie) (syl : String) (current : Option TrieNode) : Option TrieNode :=
  findChild (current.getD t.root).children syl

/-- Complete descent along a syllable path (the loop of `has_word` /
`get_word_data`). -/
def findNode : TrieNode → List String → Option TrieNode
  | nd, [] => some nd
  | nd, s :: rest =>
    match findChild nd.children s with
    | none => none
    | some c => findNode c rest

/-- `Trie::has_word`. -/
def Trie.has_word (t : Trie) (syls : List String) : Bool :=
  match findNode t.root syls with
  | some nd => nd.is_leaf
  | none => false

/-- The word-count invariant of the spec: `word_count` equals the
number of `is_leaf` nodes reachable from the root. -/
def Trie.inv (t : Trie) : Prop := t.word_count = countLeaves t.root


/-! ### Word-count invariant (C5) -/

theorem countLeaves_mk (cs : List (String × TrieNode)) (leaf : Bool) (d : Option WordData) :
    countLeaves (.mk cs leaf d) = (if leaf then 1 else 0) + countLeavesList cs := by
  rw [countLeaves]

theorem countLeavesList_cons (k : String) (v : TrieNode) (rest : List (String × TrieNode)) :
    countLeavesList ((k, v) :: rest) = countLeaves v + countLeavesList rest := by
  rw [countLeavesList]

theorem countLeaves_new : countLeaves TrieNode.new = 0 := by
  rw [TrieNode.new, countLeaves, countLeavesList]
  simp

theorem setChild_count_found {cs : List (String × TrieNode)} {s : String} {c : TrieNode}
    (h : findChild cs s = some c) (c' : TrieNode) :
    countLeavesList (setChild cs s c') + countLeaves c
      = countLeavesList cs + countLeaves c' := by
  induction cs with
  | nil => simp [findChild] at h
  | cons p rest ih =>
    obtain ⟨k, v⟩ := p
    by_cases hk : (k == s) = true
    · simp only [findChild, List.find?, hk, Option.map_some'] at h
      obtain rfl : v = c := by injection h
      simp only [setChild, hk, if_pos, countLeavesList_cons]
      omega
    · simp only [findChild, List.find?, hk, Bool.false_eq_true] at h
      have hrest : findChild rest s = some c := by
        simpa [findChild] using h
      have := ih hrest
      simp only [setChild, hk, Bool.false_eq_true, if_false, countLeavesList_cons]
      omega

theorem setChild_count_new {cs : List (String × TrieNode)} {s : String}
    (h : findChild cs s = none) (c' : TrieNode) :
    countLeavesList (setChild cs s c') = countLeavesList cs + countLeaves c' := by
  induction cs with
  | nil => simp [setChild, countLeavesList_cons, countLeavesList]
  | cons p rest ih =>
    obtain ⟨k, v⟩ := p
    by_cases hk : (k == s) = true
    · simp only [findChild, List.find?, hk, Option.map_some'] at h
      exact absurd h (by simp)
    · simp only [findChild, List.find?, hk, Bool.false_eq_true] at h
      have hrest : findChild rest s = none := by
        simpa [findChild] using h
      have := ih hrest
      simp only [setChild, hk, Bool.false_eq_true, if_false, countLeavesList_cons]
      omega

theorem addAux_count (syls : List String) (nd : TrieNode) (data : Option WordData) :
    countLeaves (addAux nd syls data).1
      = countLeaves nd + (if (addAux nd syls data).2 then 0 else 1) := by
  induction syls generalizing nd with
  | nil =>
    cases nd with
    | mk cs leaf d =>
      simp only [addAux, countLeaves_mk]
      cases leaf <;> simp <;> omega
  | cons s rest ih =>
    cases nd with
    | mk cs leaf d =>
      cases hf : findChild cs s with
      | some c =>
        have hset := setChild_count_found hf (addAux c rest data).1
        have hih := ih c
        simp only [addAux, countLeaves_mk, hf, Option.getD_some]
        cases h2 : (addAux c rest data).2 <;>
          simp only [h2, if_true, if_false] at hih ⊢ <;> omega
      | none =>
        have hset := setChild_count_new hf (addAux TrieNode.new rest data).1
        have hih := ih TrieNode.new
        rw [countLeaves_new] at hih
        simp only [addAux, countLeaves_mk, hf, Option.getD_none]
        cases h2 : (addAux TrieNode.new rest data).2 <;>
          simp only [h2, if_true, if_false] at hih ⊢ <;> omega

theorem addSenseAux_count (syls : List String) (nd : TrieNode) (data : WordData) (sense : Sense) :
    countLeaves (addSenseAux nd syls data sense).1
      = countLeaves nd + (if (addSenseAux nd syls data sense).2 then 0 else 1) := by
  induction syls generalizing nd with
  | nil =>
    cases nd with
    | mk cs leaf d =>
      simp only [addSenseAux, countLeaves_mk]
      cases leaf <;> simp <;> omega
  | cons s rest ih =>
    cases nd with
    | mk cs leaf d =>
      cases hf : findChild cs s with
      | some c =>
        have hset := setChild_count_found hf (addSenseAux c rest data sense).1
        have hih := ih c
        simp only [addSenseAux, countLeaves_mk, hf, Option.getD_some]
        cases h2 : (addSenseAux c rest data sense).2 <;>
          simp only [h2, if_true, if_false] at hih ⊢ <;> omega
      | none =>
        have hset := setChild_count_new hf (addSenseAux TrieNode.new rest data sense).1
        have hih := ih TrieNode.new
        rw [countLeaves_new] at hih
        simp only [addSenseAux, countLeaves_mk, hf, Option.getD_none]
        cases h2 : (addSenseAux TrieNode.new rest data sense).2 <;>
          simp only [h2, if_true, if_false] at hih ⊢ <;> omega

theorem deactAux_count (syls : List String) (nd : TrieNode) :
    countLeaves (deactAux nd syls).1 + (if (deactAux nd syls).2 then 1 else 0)
      = countLeaves nd := by
  induction syls generalizing nd with
  | nil =>
    cases nd with
    | mk cs leaf d =>
      simp only [deactAux]
      cases leaf <;> simp [countLeaves_mk] <;> omega
  | cons s rest ih =>
    cases nd with
    | mk cs leaf d =>
      cases hf : findChild cs s with
      | none => simp [deactAux, hf]
      | some c =>
        have hset := setChild_count_found hf (deactAux c rest).1
        have hih := ih c
        simp only [deactAux, hf, countLeaves_mk]
        cases h2 : (deactAux c rest).2 <;>
          simp only [h2, if_true, if_false] at hih ⊢ <;> omega


theorem countLeaves_eq (n : TrieNode) :
    countLeaves n = (if n.is_leaf then 1 else 0) + countLeavesList n.children := by
  cases n
  simp [countLeaves_mk, TrieNode.is_leaf, TrieNode.children]

theorem mergeChildren_count_aux (n : Nat) :
    ∀ (t : TrieNode) (l : List (String × TrieNode)), sizeOf l ≤ n →
      countLeaves (mergeChildren t l).1 = countLeaves t + (mergeChildren t l).2 := by
  induction n with
  | zero =>
    intro t l hl
    cases l with
    | nil => simp [mergeChildren]
    | cons p rest =>
      simp only [List.cons.sizeOf_spec] at hl
      omega
  | succ n ih =>
    intro t l hl
    cases l with
    | nil => simp [mergeChildren]
    | cons p rest =>
      obtain ⟨syl, sc⟩ := p
      cases t with
      | mk cs leaf d =>
        simp only [List.cons.sizeOf_spec, Prod.mk.sizeOf_spec] at hl
        have hscc : sizeOf sc.children < sizeOf sc := by
          cases sc with
          | mk scc scl scd =>
            simp only [TrieNode.children, TrieNode.mk.sizeOf_spec]
            omega
        rw [mergeChildren.eq_def]
        dsimp only
        set tc := (findChild cs syl).getD TrieNode.new with htc
        set nl := sc.is_leaf && !tc.is_leaf with hnl
        set tc1 := if nl = true then TrieNode.mk tc.children true tc.data else tc with htc1
        set tc2 := if (sc.is_leaf && sc.data.isSome) = true
          then TrieNode.mk tc1.children tc1.is_leaf sc.data else tc1 with htc2
        set r := mergeChildren tc2 sc.children with hr
        set node2 := TrieNode.mk (setChild cs syl r.1) leaf d with hnode2
        set r2 := mergeChildren node2 rest with hr2
        have h1 : countLeaves r2.1 = countLeaves node2 + r2.2 := by
          rw [hr2]
          exact ih node2 rest (by omega)
        have h2 : countLeaves r.1 = countLeaves tc2 + r.2 := by
          rw [hr]
          exact ih tc2 sc.children (by omega)
        have h3 : countLeaves tc2 = countLeaves tc1 := by
          rw [htc2]
          split
          · rw [countLeaves_mk, ← countLeaves_eq]
          · rfl
        have h4 : countLeaves tc1 = countLeaves tc + (if nl = true then 1 else 0) := by
          rw [htc1]
          by_cases hb : nl = true
          · rw [if_pos hb, if_pos hb, countLeaves_mk]
            have hlf : tc.is_leaf = false := by
              rw [hnl] at hb
              cases his : tc.is_leaf
              · rfl
              · rw [his] at hb
                simp at hb
            rw [countLeaves_eq tc, hlf]
            simp [Nat.add_comm]
          · rw [if_neg hb, if_neg hb]
            omega
        have h5 : countLeavesList (setChild cs syl r.1) + countLeaves tc
            = countLeavesList cs + countLeaves r.1 := by
          cases hf : findChild cs syl with
          | some c =>
            have : tc = c := by rw [htc, hf]; rfl
            rw [this]
            exact setChild_count_found hf r.1
          | none =>
            have htcn : tc = TrieNode.new := by rw [htc, hf]; rfl
            rw [htcn, countLeaves_new]
            rw [setChild_count_new hf r.1]
            omega
        rw [hnode2, countLeaves_mk] at h1
        rw [countLeaves_mk]
        omega

theorem mergeChildren_count (t : TrieNode) (l : List (String × TrieNode)) :
    countLeaves (mergeChildren t l).1 = countLeaves t + (mergeChildren t l).2 :=
  mergeChildren_count_aux (sizeOf l) t l (Nat.le_refl _)


theorem Trie.new_inv : Trie.inv Trie.new := by
  unfold Trie.inv Trie.new
  rw [countLeaves_new]

theorem Trie.add_inv (t : Trie) (syls : List String) (d : Option WordData)
    (h : t.inv) : (t.add syls d).inv := by
  unfold Trie.inv at h ⊢
  unfold Trie.add
  have hc := addAux_count syls t.root d
  dsimp only
  cases h2 : (addAux t.root syls d).2 <;>
    simp only [h2, if_true, if_false] at hc ⊢ <;> omega

theorem Trie.add_word_inv (t : Trie) (w : String) (d : Option WordData)
    (h : t.inv) : (t.add_word w d).inv := by
  unfold Trie.add_word
  dsimp only
  split
  · exact h
  · exact t.add_inv _ d h

theorem Trie.add_word_with_sense_inv (t : Trie) (w : String) (data : WordData) (sense : Sense)
    (h : t.inv) : (t.add_word_with_sense w data sense).inv := by
  unfold Trie.add_word_with_sense
  dsimp only
  split
  · exact h
  · unfold Trie.inv at h ⊢
    have hc := addSenseAux_count (splitSyls w) t.root data sense
    cases h2 : (addSenseAux t.root (splitSyls w) data sense).2 <;>
      simp only [h2, if_true, if_false] at hc ⊢ <;> omega

theorem Trie.deactivate_inv (t : Trie) (syls : List String)
    (h : t.inv) : (t.deactivate syls).1.inv := by
  unfold Trie.inv at h ⊢
  unfold Trie.deactivate
  have hc := deactAux_count syls t.root
  dsimp only
  cases h2 : (deactAux t.root syls).2 <;>
    simp only [h2, if_true, if_false] at hc ⊢ <;> omega

theorem Trie.merge_inv (t o : Trie) (h : t.inv) : (t.merge o).inv := by
  unfold Trie.inv at h ⊢
  unfold Trie.merge
  have hc := mergeChildren_count t.root o.root.children
  dsimp only
  omega

/-- C5: `word_count` (returned by `len`) of the empty trie equals the
number of `is_leaf` nodes reachable from its root, and this equality is
preserved by every operation: `add`, `add_word`,
`add_word_with_sense`, `deactivate` and `merge` (whose added count is
exactly the increase in reachable leaves). -/
theorem trie_word_count_invariant :
    (Trie.new.len = countLeaves Trie.new.root)
    ∧ (∀ (t : Trie) (syls : List String) (d : Option WordData),
        t.len = countLeaves t.root → (t.add syls d).len = countLeaves (t.add syls d).root)
    ∧ (∀ (t : Trie) (w : String) (d : Option WordData),
        t.len = countLeaves t.root → (t.add_word w d).len = countLeaves (t.add_word w d).root)
    ∧ (∀ (t : Trie) (w : String) (data : WordData) (sense : Sense),
        t.len = countLeaves t.root →
          (t.add_word_with_sense w data sense).len
            = countLeaves (t.add_word_with_sense w data sense).root)
    ∧ (∀ (t : Trie) (syls : List String),
        t.len = countLeaves t.root →
          (t.deactivate syls).1.len = countLeaves (t.deactivate syls).1.root)
    ∧ (∀ (t o : Trie),
        t.len = countLeaves t.root → (t.merge o).len = countLeaves (t.merge o).root) :=
  ⟨Trie.new_inv,
   fun t syls d h => Trie.add_inv t syls d h,
   fun t w d h => Trie.add_word_inv t w d h,
   fun t w data sense h => Trie.add_word_with_sense_inv t w data sense h,
   fun t syls h => Trie.deactivate_inv t syls h,
   fun t o h => Trie.merge_inv t o h⟩

/-- C5 (witness): the invariant theorem applied to a concrete trie:
adding the word ka and merging the result with itself. -/
theorem trie_word_count_invariant_witness :
    ((Trie.new.add ["ka"] none).len = countLeaves (Trie.new.add ["ka"] none).root)
    ∧ (((Trie.new.add ["ka"] none).merge (Trie.new.add ["ka"] none)).len
        = countLeaves ((Trie.new.add ["ka"] none).merge (Trie.new.add ["ka"] none)).root) := by
  have h1 : (Trie.new.add ["ka"] none).len = countLeaves (Trie.new.add ["ka"] none).root :=
    trie_word_count_invariant.2.1 Trie.new ["ka"] none (by decide)
  exact ⟨h1, trie_word_count_invariant.2.2.2.2.2 _ (Trie.new.add ["ka"] none) h1⟩


/-! ## Tokens and the longest-match tokenizer (src/token.rs, src/tokenizer.rs) -/

/-- `AffixationInfo` from `token.rs`. -/
structure AffixationInfo where
  len : Nat
  aa : Bool
  deriving DecidableEq

/-- `Token` from `token.rs` (`lemma_` models the Rust field `lemma`). -/
structure Token where
  text : String
  start : Nat
  len : Nat
  chunk_type : ChunkType
  pos : Option String
  lemma_ : Option String
  freq : Option Nat
  syls : List String
  is_affix : Bool
  is_affix_host : Bool
  is_skrt : Bool
  senses : List Sense
  affixation : Option AffixationInfo
  has_merged_dagdra : Bool
  deriving DecidableEq

/-- `Token::with_text`: all other fields take their `Default` values. -/
def Token.with_text (text : String) (start len : Nat) (ct : ChunkType) : Token :=
  ⟨text, start, len, ct, none, none, none, [], false, false, false, [], none, false⟩

/-- Byte slicing `s[a..b]` of a Rust string at character-aligned
boundaries (the only slices the code takes): the characters whose byte
extents lie inside the range. -/
def sliceBytesAux : List Char → Nat → Nat → Nat → List Char
  | [], _, _, _ => []
  | c :: cs, p, a, b =>
    (if a ≤ p ∧ p + c.utf8Size ≤ b then [c] else []) ++ sliceBytesAux cs (p + c.utf8Size) a b

/-- Rust `&s[a..b]`. -/
def sliceBytes (s : String) (a b : Nat) : String := ⟨sliceBytesAux s.data 0 a b⟩

/-- The walk loop of `Tokenizer::longest_match`: advance through
syllable chunks while the trie walk succeeds, recording the last index
at which the reached node was a match. -/
def walkLoop (trie : Trie) : List Chunk → Nat → Option TrieNode → List String →
    Option (Nat × TrieNode) → List String × Option (Nat × TrieNode)
  | [], _, _, syls, lm => (syls, lm)
  | ch :: rest, w, cur, syls, lm =>
    match ch.syl with
    | none => (syls, lm)
    | some syl =>
      match trie.walk syl cur with
      | none => (syls, lm)
      | some nd =>
        walkLoop trie rest (w + 1) (some nd) (syls ++ [syl])
          (if nd.is_match then some (w, nd) else lm)

/-- `Tokenizer::longest_match`: returns the produced token and the next
chunk index. -/
def longest_match (trie : Trie) (chunks : List Chunk) (original_text : String)
    (start_i : Nat) : Token × Nat :=
  let wl := walkLoop trie (chunks.drop start_i) start_i none [] none
  match wl.2 with
  | some (match_idx, nd) =>
    let start_chunk := chunks.getD start_i default
    let end_chunk := chunks.getD match_idx default
    let start := start_chunk.start
    let endB := end_chunk.start + end_chunk.len
    let tok0 := Token.with_text (sliceBytes original_text start endB) start (endB - start)
      ChunkType.Text
    let tok1 := { tok0 with syls := wl.1.take (match_idx - start_i + 1) }
    let tok2 :=
      match nd.data with
      | some data =>
        { tok1 with
          pos := data.pos
          lemma_ := data.lemma_
          freq := data.freq
          is_skrt := data.skrt
          senses := data.senses
          affixation := data.affixation.map (fun a => AffixationInfo.mk a.len a.aa) }
      | none => tok1
    (tok2, match_idx + 1)
  | none =>
    let chunk := chunks.getD start_i default
    let tok0 := Token.with_text (sliceBytes original_text chunk.start (chunk.start + chunk.len))
      chunk.start chunk.len ChunkType.Text
    let tok1 :=
      match chunk.syl with
      | some syl => { tok0 with syls := [syl] }
      | none => tok0
    ({ tok1 with pos := some "NO_POS" }, start_i + 1)

/-- The final `last_match` is either the one passed in or was recorded
at an index no smaller than the current walker position. -/
theorem walkLoop_lm_stable (trie : Trie) (rest : List Chunk) :
    ∀ (w : Nat) (cur : Option TrieNode) (syls : List String) (lm : Option (Nat × TrieNode)),
      (walkLoop trie rest w cur syls lm).2 = lm
        ∨ ∃ w' nd', (walkLoop trie rest w cur syls lm).2 = some (w', nd') ∧ w ≤ w' := by
  induction rest with
  | nil => intro w cur syls lm; left; rfl
  | cons ch rest ih =>
    intro w cur syls lm
    rw [walkLoop]
    cases hsy : ch.syl with
    | none => left; rfl
    | some syl =>
      dsimp only
      cases hw : trie.walk syl cur with
      | none => left; rfl
      | some nd =>
        dsimp only
        rcases ih (w + 1) (some nd) (syls ++ [syl]) (if nd.is_match then some (w, nd) else lm)
          with h | ⟨w', nd', h, hge⟩
        · rw [h]
          by_cases hm : nd.is_match = true
          · right
            exact ⟨w, nd, by rw [if_pos hm], Nat.le_refl w⟩
          · left
            rw [if_neg hm]
        · right
          exact ⟨w', nd', h, by omega⟩

/-- Any recorded match index stays below the start position plus the
number of accumulated syllables. -/
theorem walkLoop_lm_lt (trie : Trie) (rest : List Chunk) :
    ∀ (w0 : Nat) (cur : Option TrieNode) (syls : List String) (lm : Option (Nat × TrieNode)),
      (∀ p : Nat × TrieNode, lm = some p → p.1 + 1 ≤ w0 + syls.length) →
      ∀ q : Nat × TrieNode,
        (walkLoop trie rest (w0 + syls.length) cur syls lm).2 = some q →
        q.1 + 1 ≤ w0 + (walkLoop trie rest (w0 + syls.length) cur syls lm).1.length := by
  induction rest with
  | nil =>
    intro w0 cur syls lm hlm q hq
    exact hlm q hq
  | cons ch rest ih =>
    intro w0 cur syls lm hlm q hq
    rw [walkLoop] at hq ⊢
    cases hsy : ch.syl with
    | none =>
      rw [hsy] at hq
      exact hlm q hq
    | some syl =>
      rw [hsy] at hq
      dsimp only at hq ⊢
      cases hw : trie.walk syl cur with
      | none =>
        rw [hw] at hq
        exact hlm q hq
      | some nd =>
        rw [hw] at hq
        dsimp only at hq ⊢
        have hlen : w0 + syls.length + 1 = w0 + (syls ++ [syl]).length := by
          simp
          omega
        rw [hlen] at hq ⊢
        refine ih w0 (some nd) (syls ++ [syl]) _ ?_ q hq
        intro p hp
        by_cases hm : nd.is_match = true
        · rw [if_pos hm] at hp
          injection hp with hp
          subst hp
          simp
          omega
        · rw [if_neg hm] at hp
          have := hlm p hp
          simp
          omega


/-- The maximal run of consecutive syllable chunks (their cleaned
syllables) at the front of a chunk list. -/
def sylRun : List Chunk → List String
  | [] => []
  | ch :: rest =>
    match ch.syl with
    | none => []
    | some s => s :: sylRun rest

theorem findNode_append (l1 l2 : List String) :
    ∀ nd : TrieNode, findNode nd (l1 ++ l2)
      = match findNode nd l1 with
        | none => none
        | some m => findNode m l2 := by
  induction l1 with
  | nil => intro nd; rfl
  | cons s rest ih =>
    intro nd
    rw [List.cons_append, findNode, findNode]
    cases findChild nd.children s with
    | none => rfl
    | some c => exact ih c

/-- When a leaf-terminated path for `ws` exists from the current node
and the next chunks spell `ws`, the walk records a match at index
`w + ws.length - 1` or beyond. -/
theorem walkLoop_reaches (trie : Trie) (ws : List String) :
    ∀ (rest : List Chunk) (w : Nat) (cur : Option TrieNode) (syls : List String)
      (lm : Option (Nat × TrieNode)) (ndEnd : TrieNode),
      ws ≠ [] →
      findNode (cur.getD trie.root) ws = some ndEnd →
      ndEnd.is_leaf = true →
      (sylRun rest).take ws.length = ws →
      ∃ q : Nat × TrieNode, (walkLoop trie rest w cur syls lm).2 = some q
        ∧ w + ws.length - 1 ≤ q.1 := by
  induction ws with
  | nil => intro _ _ _ _ _ _ hne; exact absurd rfl hne
  | cons s ws' ih =>
    intro rest w cur syls lm ndEnd hne hfind hleaf htake
    cases rest with
    | nil => simp [sylRun] at htake
    | cons ch rest' =>
      cases hsy : ch.syl with
      | none =>
        rw [sylRun, hsy] at htake
        simp at htake
      | some s0 =>
        rw [sylRun, hsy] at htake
        dsimp only at htake
        rw [List.length_cons, List.take_succ_cons] at htake
        have hs0 : s0 = s := by injection htake
        have htake' : (sylRun rest').take ws'.length = ws' := by injection htake
        subst hs0
        rw [findNode.eq_def] at hfind
        dsimp only at hfind
        cases hc : findChild (cur.getD trie.root).children s0 with
        | none => rw [hc] at hfind; exact absurd hfind (by simp)
        | some c =>
          rw [hc] at hfind
          dsimp only at hfind
          rw [walkLoop, hsy]
          dsimp only
          have hwalk : trie.walk s0 cur = some c := hc
          rw [hwalk]
          dsimp only
          cases hws : ws' with
          | nil =>
            have hrfl : findNode c [] = some c := rfl
            rw [hws, hrfl] at hfind
            have hcEnd : c = ndEnd := by injection hfind
            subst hcEnd
            have hm : c.is_match = true := hleaf
            rw [if_pos hm]
            rcases walkLoop_lm_stable trie rest' (w + 1) (some c) (syls ++ [s0])
                (some (w, c)) with h | ⟨w', nd', h, hge⟩
            · exact ⟨(w, c), h, by simp⟩
            · exact ⟨(w', nd'), h, by simp; omega⟩
          | cons s1 ws'' =>
            subst hws
            have hne' : s1 :: ws'' ≠ [] := by simp
            have hrec := ih rest' (w + 1) (some c) (syls ++ [s0])
              (if c.is_match = true then some (w, c) else lm) ndEnd hne'
              (by simpa using hfind) hleaf htake'
            rcases hrec with ⟨q, hq, hgeq⟩
            refine ⟨q, hq, ?_⟩
            simp only [List.length_cons] at hgeq ⊢
            omega


/-- `longest_match` always advances the chunk index. -/
theorem longest_match_next_gt (trie : Trie) (chunks : List Chunk) (text : String) (i : Nat) :
    i < (longest_match trie chunks text i).2 := by
  unfold longest_match
  dsimp only
  cases hlm : (walkLoop trie (chunks.drop i) i none [] none).2 with
  | none =>
    dsimp only
    omega
  | some q =>
    obtain ⟨mi, nd⟩ := q
    dsimp only
    rcases walkLoop_lm_stable trie (chunks.drop i) i none [] none with h | ⟨w', nd', h, hge⟩
    · rw [h] at hlm
      exact absurd hlm (by simp)
    · have hpair : (w', nd') = (mi, nd) := by
        have := h.symm.trans hlm
        injection this
      have hw : w' = mi := congrArg Prod.fst hpair
      omega

/-- The chunk-iteration loop of `Tokenizer::tokenize_chunks`:
non-syllable chunks pass through as tokens, syllable chunks go through
longest-match. -/
def tcLoop (trie : Trie) (chunks : List Chunk) (text : String) (i : Nat) : List Token :=
  if h : i < chunks.length then
    let chunk := chunks.get ⟨i, h⟩
    if chunk.syl.isNone then
      Token.with_text (sliceBytes text chunk.start (chunk.start + chunk.len)) chunk.start
          chunk.len chunk.chunk_type
        :: tcLoop trie chunks text (i + 1)
    else
      (longest_match trie chunks text i).1
        :: tcLoop trie chunks text (longest_match trie chunks text i).2
  else []
termination_by chunks.length - i
decreasing_by
  · omega
  · have := longest_match_next_gt trie chunks text i
    omega

/-- `Tokenizer::tokenize_chunks`. -/
def tokenize_chunks (trie : Trie) (chunks : List Chunk) (original_text : String) : List Token :=
  tcLoop trie chunks original_text 0


theorem has_word_iff (t : Trie) (syls : List String) :
    t.has_word syls = true
      ↔ ∃ nd : TrieNode, findNode t.root syls = some nd ∧ nd.is_leaf = true := by
  unfold Trie.has_word
  cases h : findNode t.root syls with
  | none => simp
  | some nd =>
    dsimp only
    constructor
    · intro hl
      exact ⟨nd, rfl, hl⟩
    · rintro ⟨nd', hnd', hl⟩
      injection hnd' with h2
      rw [h2]
      exact hl

/-- When the walk records a match at index `mi`, the emitted token's
`syls` has exactly `mi - i + 1` entries. -/
theorem longest_match_syls_len (trie : Trie) (chunks : List Chunk) (text : String) (i : Nat)
    (mi : Nat) (nd : TrieNode)
    (hq : (walkLoop trie (chunks.drop i) i none [] none).2 = some (mi, nd)) :
    (longest_match trie chunks text i).1.syls.length = mi - i + 1 ∧ i ≤ mi := by
  have high : i ≤ mi := by
    rcases walkLoop_lm_stable trie (chunks.drop i) i none [] none with h | ⟨w', nd', h, hge⟩
    · rw [h] at hq
      exact absurd hq (by simp)
    · have hpair : (w', nd') = (mi, nd) := by
        have := h.symm.trans hq
        injection this
      have hw : w' = mi := congrArg Prod.fst hpair
      omega
    
  have hlt := walkLoop_lm_lt trie (chunks.drop i) i none [] none
    (fun p hp => by simp at hp) (mi, nd)
  simp only [List.length_nil, Nat.add_zero] at hlt
  have hlen := hlt hq
  refine ⟨?_, high⟩
  unfold longest_match
  dsimp only
  rw [hq]
  dsimp only
  cases hnd : nd.data with
  | none =>
    dsimp only
    rw [List.length_take]
    omega
  | some data =>
    dsimp only
    rw [List.length_take]
    omega

/-- When the first chunk is a syllable chunk, the token list starts
with the longest-match token from index 0. -/
theorem tokenize_chunks_head_syl (trie : Trie) (chunks : List Chunk) (text : String)
    (ch : Chunk) (rest : List Chunk) (s : String)
    (hch : chunks = ch :: rest) (hs : ch.syl = some s) :
    tokenize_chunks trie chunks text
      = (longest_match trie chunks text 0).1
          :: tcLoop trie chunks text (longest_match trie chunks text 0).2 := by
  subst hch
  unfold tokenize_chunks
  rw [tcLoop.eq_def]
  have h0 : 0 < (ch :: rest).length := by simp
  rw [dif_pos h0]
  dsimp only
  rw [show (ch :: rest).get ⟨0, h0⟩ = ch from rfl]
  rw [hs]
  rw [if_neg (by simp)]


/-- C1 (amended): if the dictionary trie contains both a word A (n
syllables, n at least 1) and a word A++B (n+k syllables, k at least 1),
and the chunk stream begins with n+k consecutive syllable chunks
spelling A++B, then the first token emitted by the tokenizer has at
least n+k entries in its syls field: the longer dictionary entry wins
over the shorter one (an even longer matching entry may extend the
token further, which is why "exactly n+k" does not hold in general). -/
theorem longest_match_maximality (trie : Trie) (chunks : List Chunk) (text : String)
    (A B : List String) (hA : A ≠ []) (hB : B ≠ [])
    (hAword : trie.has_word A = true)
    (hABword : trie.has_word (A ++ B) = true)
    (hpre : (sylRun chunks).take (A.length + B.length) = A ++ B) :
    ∃ (t : Token) (restT : List Token),
      tokenize_chunks trie chunks text = t :: restT
        ∧ A.length + B.length ≤ t.syls.length := by
  obtain ⟨ndEnd, hfind, hleaf⟩ := (has_word_iff trie (A ++ B)).mp hABword
  have hABne : A ++ B ≠ [] := by
    cases A with
    | nil => exact absurd rfl hA
    | cons a as => simp
  have hlenAB : (A ++ B).length = A.length + B.length := by simp
  have htake : (sylRun chunks).take (A ++ B).length = A ++ B := by
    rw [hlenAB]
    exact hpre
  obtain ⟨q, hq, hgeq⟩ := walkLoop_reaches trie (A ++ B) chunks 0 none [] none ndEnd hABne
    (by simpa using hfind) hleaf htake
  obtain ⟨mi, nd⟩ := q
  dsimp only at hgeq
  have hchunks : ∃ (ch : Chunk) (rest : List Chunk) (s : String),
      chunks = ch :: rest ∧ ch.syl = some s := by
    cases hcc : chunks with
    | nil =>
      rw [hcc] at htake
      rw [show sylRun [] = [] from rfl] at htake
      simp at htake
      exact absurd htake.1 hA
    | cons ch rest =>
      cases hsy : ch.syl with
      | none =>
        rw [hcc, sylRun, hsy] at htake
        simp at htake
        exact absurd htake.1 hA
      | some s => exact ⟨ch, rest, s, rfl, hsy⟩
  obtain ⟨ch, rest, s, hcc, hcs⟩ := hchunks
  have hq0 : (walkLoop trie (chunks.drop 0) 0 none [] none).2 = some (mi, nd) := by
    rw [List.drop_zero]
    exact hq
  have hsl := longest_match_syls_len trie chunks text 0 mi nd hq0
  refine ⟨(longest_match trie chunks text 0).1,
    tcLoop trie chunks text (longest_match trie chunks text 0).2,
    tokenize_chunks_head_syl trie chunks text ch rest s hcc hcs, ?_⟩
  have h1 := hsl.1
  rw [hlenAB] at hgeq
  omega


/-- A two-word dictionary (ka; ka kha) for the C1 witness. -/
def lmTrieW : Trie := (Trie.new.add ["ka"] none).add ["ka", "kha"] none

/-- Chunk stream spelling ka kha for the C1 witness. -/
def lmChunksW : List Chunk :=
  [⟨some "ka", .Text, 0, 2⟩, ⟨some "kha", .Text, 2, 3⟩]

/-- C1 (witness): the maximality theorem applied to a concrete trie
containing ka and ka++kha and a stream spelling both. -/
theorem longest_match_maximality_witness :
    ∃ (t : Token) (restT : List Token),
      tokenize_chunks lmTrieW lmChunksW "kakha" = t :: restT
        ∧ List.length ["ka"] + List.length ["kha"] ≤ t.syls.length :=
  longest_match_maximality lmTrieW lmChunksW "kakha" ["ka"] ["kha"]
    (by decide) (by decide) (by decide) (by decide) (by decide)

/-- A three-word dictionary (ka; ka kha; ka kha ga) for the C1
counterexample. -/
def lmTrieC : Trie :=
  ((Trie.new.add ["ka"] none).add ["ka", "kha"] none).add ["ka", "kha", "ga"] none

/-- Chunk stream spelling ka kha ga for the C1 counterexample. -/
def lmChunksC : List Chunk :=
  [⟨some "ka", .Text, 0, 2⟩, ⟨some "kha", .Text, 2, 3⟩, ⟨some "ga", .Text, 5, 2⟩]

/-- C1 (counterexample): the trie contains both A = [ka] (n = 1) and
A++B = [ka, kha] (k = 1) and the stream begins with the 2 syllable
chunks spelling A++B, yet the first (and only) token has 3 syllables,
not exactly n+k = 2: the trie also contains the longer entry
[ka, kha, ga] which wins. -/
theorem longest_match_exactness_counterexample :
    lmTrieC.has_word ["ka"] = true
    ∧ lmTrieC.has_word (["ka"] ++ ["kha"]) = true
    ∧ (sylRun lmChunksC).take (List.length ["ka"] + List.length ["kha"]) = ["ka"] ++ ["kha"]
    ∧ (tokenize_chunks lmTrieC lmChunksC "kakhaga").map (fun t => t.syls.length) = [3] := by
  refine ⟨by decide, by decide, by decide, ?_⟩
  rw [tokenize_chunks_head_syl lmTrieC lmChunksC "kakhaga" ⟨some "ka", .Text, 0, 2⟩
    [⟨some "kha", .Text, 2, 3⟩, ⟨some "ga", .Text, 5, 2⟩] "ka" rfl rfl]
  rw [show (longest_match lmTrieC lmChunksC "kakhaga" 0).2 = 3 from by decide]
  rw [show tcLoop lmTrieC lmChunksC "kakhaga" 3 = [] from by
    rw [tcLoop.eq_def]
    simp [lmChunksC]]
  simp only [List.map]
  rw [show (longest_match lmTrieC lmChunksC "kakhaga" 0).1.syls.length = 3 from by decide]


/-- If no nonempty prefix of the upcoming syllable run reaches a leaf,
the walk records no match. -/
theorem walkLoop_no_match (trie : Trie) (rest : List Chunk) :
    ∀ (w : Nat) (cur : Option TrieNode) (syls : List String) (full : List String),
      (∀ (j : Nat) (nd : TrieNode),
        findNode trie.root (full.take (j + 1)) = some nd → nd.is_leaf = false) →
      full = syls ++ sylRun rest →
      ((cur = none ∧ syls = []) ∨
        (∃ nd0 : TrieNode, cur = some nd0 ∧ findNode trie.root syls = some nd0)) →
      (walkLoop trie rest w cur syls none).2 = none := by
  induction rest with
  | nil => intro w cur syls full hno hfull hinv; rfl
  | cons ch rest' ih =>
    intro w cur syls full hno hfull hinv
    rw [walkLoop]
    cases hsy : ch.syl with
    | none => rfl
    | some s =>
      dsimp only
      cases hw : trie.walk s cur with
      | none => rfl
      | some nd =>
        dsimp only
        have hnode : findNode trie.root (syls ++ [s]) = some nd := by
          rcases hinv with ⟨hc, hs0⟩ | ⟨nd0, hc, hf0⟩
          · subst hc
            subst hs0
            unfold Trie.walk at hw
            simp only [Option.getD_none] at hw
            rw [List.nil_append, findNode, hw]
            rfl
          · subst hc
            unfold Trie.walk at hw
            simp only [Option.getD_some] at hw
            rw [findNode_append, hf0]
            dsimp only
            rw [findNode, hw]
            rfl
        have htk : full.take (syls.length + 1) = syls ++ [s] := by
          rw [hfull, sylRun, hsy]
          dsimp only
          rw [List.take_append]
          simp
        have hlf : nd.is_leaf = false := by
          have := hno syls.length nd
          rw [htk] at this
          exact this hnode
        have hm : nd.is_match = false := hlf
        rw [hm]
        simp only [Bool.false_eq_true, if_false]
        refine ih (w + 1) (some nd) (syls ++ [s]) full hno ?_ ?_
        · rw [hfull, sylRun, hsy]
          simp
        · right
          exact ⟨nd, rfl, hnode⟩


/-- C4: at every chunk-stream position i holding a syllable chunk from
which no trie walk (along the run of consecutive syllable chunks
starting at i) reaches an is_leaf node, longest_match emits exactly one
Text token whose syls holds only that chunk's syllable, with pos the
literal string NO_POS, and advances to chunk i+1; it is total, so no
error is raised. -/
theorem unknown_word_fallback (trie : Trie) (chunks : List Chunk) (text : String) (i : Nat)
    (ch : Chunk) (s : String)
    (hch : chunks.getD i default = ch) (hsyl : ch.syl = some s)
    (hnomatch : ∀ (j : Nat) (nd : TrieNode),
      findNode trie.root ((sylRun (chunks.drop i)).take (j + 1)) = some nd →
        nd.is_leaf = false) :
    longest_match trie chunks text i
      = ({ Token.with_text (sliceBytes text ch.start (ch.start + ch.len)) ch.start ch.len
            ChunkType.Text with syls := [s], pos := some "NO_POS" }, i + 1) := by
  have hlm : (walkLoop trie (chunks.drop i) i none [] none).2 = none :=
    walkLoop_no_match trie (chunks.drop i) i none [] (sylRun (chunks.drop i)) hnomatch
      (by simp) (Or.inl ⟨rfl, rfl⟩)
  unfold longest_match
  dsimp only
  rw [hlm]
  dsimp only
  rw [hch, hsyl]

/-- A single unknown-syllable chunk stream for the C4 witness. -/
def ufChunksW : List Chunk := [⟨some "ka", .Text, 0, 2⟩]

/-- C4 (witness): with an empty trie, the syllable chunk ka produces a
single-syllable NO_POS Text token and the index advances to 1. -/
theorem unknown_word_fallback_witness :
    longest_match Trie.new ufChunksW "ka" 0
      = ({ Token.with_text (sliceBytes "ka" 0 (0 + 2)) 0 2 ChunkType.Text
            with syls := ["ka"], pos := some "NO_POS" }, 0 + 1) := by
  refine unknown_word_fallback Trie.new ufChunksW "ka" 0 ⟨some "ka", .Text, 0, 2⟩ "ka"
    (by decide) rfl ?_
  intro j nd h
  rw [show sylRun (List.drop 0 ufChunksW) = ["ka"] from rfl] at h
  rw [List.take_succ_cons, List.take_nil] at h
  rw [show findNode Trie.new.root ["ka"] = none from rfl] at h
  exact absurd h (by simp)


/-! ## Syllable affix model (src/syllable.rs) -/

/-- `AFFIXABLE_SUFFIXES` from `syllable.rs` (a `HashSet`; membership
only is used). -/
def AFFIXABLE_SUFFIXES : List String :=
  ["འ", "ག", "ང", "ད", "ན", "བ", "མ", "ལ",
   "ིག", "ིང", "ིད", "ིན", "ིབ", "ིམ", "ིལ", "ིས",
   "ུག", "ུང", "ུད", "ུན", "ུབ", "ུམ", "ུལ", "ུས",
   "ེག", "ེང", "ེད", "ེན", "ེབ", "ེམ", "ེལ", "ེས",
   "ོག", "ོང", "ོད", "ོན", "ོབ", "ོམ", "ོལ", "ོས",
   "ི", "ུ", "ེ", "ོ",
   "ས", "ར"]

/-- The last `n` characters of a string
(`syl.chars().rev().take(n).rev()`). -/
def lastChars (s : String) (n : Nat) : String := ⟨s.data.drop (s.data.length - n)⟩

/-- The suffix-scanning loop of `is_thame`: for each length from `m`
down to 1, if the syllable is strictly longer than that length and its
last characters of that length are a listed suffix, succeed. -/
def suffixLoop (syl : String) : Nat → Bool
  | 0 => false
  | n + 1 =>
    if syl.data.length > n + 1 && AFFIXABLE_SUFFIXES.contains (lastChars syl (n + 1)) then
      true
    else suffixLoop syl n

/-- `SylComponents` from `syllable.rs`.  Modelled from the spec: the
embedded root list `src/data/roots.txt` is not under `src/` (only its
loader is); per the spec it is a plain list of root syllables, so the
roots are kept as a field and instantiated with a sample list pinned
down by the repository's unit tests. -/
structure SylComponents where
  roots : List String

/-- Modelled from the spec: a sample root list; the unit tests require
that བཀྲ is a root. -/
def sampleRoots : List String := ["བཀྲ"]

/-- `SylComponents::is_thame`: known root, or a listed suffix as the
last 1-4 characters with the syllable strictly longer than the suffix,
or a trailing འ with more than one character. -/
def is_thame (sc : SylComponents) (syl : String) : Bool :=
  if sc.roots.contains syl then true
  else if suffixLoop syl 4 then true
  else if syl.data.getLast? == some 'འ' && syl.data.length > 1 then true
  else false

theorem suffixLoop_iff (syl : String) (m : Nat) :
    suffixLoop syl m = true
      ↔ ∃ n : Nat, 1 ≤ n ∧ n ≤ m ∧ syl.data.length > n
          ∧ AFFIXABLE_SUFFIXES.contains (lastChars syl n) = true := by
  induction m with
  | zero =>
    rw [suffixLoop]
    simp only [Bool.false_eq_true, false_iff]
    rintro ⟨n, h1, h2, _, _⟩
    omega
  | succ m ih =>
    rw [suffixLoop]
    by_cases hc : (syl.data.length > m + 1
        && AFFIXABLE_SUFFIXES.contains (lastChars syl (m + 1))) = true
    · rw [if_pos hc]
      simp only [Bool.and_eq_true, decide_eq_true_eq] at hc
      simp only [true_iff]
      exact ⟨m + 1, by omega, by omega, hc.1, hc.2⟩
    · rw [if_neg hc]
      rw [ih]
      constructor
      · rintro ⟨n, h1, h2, h3, h4⟩
        exact ⟨n, h1, by omega, h3, h4⟩
      · rintro ⟨n, h1, h2, h3, h4⟩
        refine ⟨n, h1, ?_, h3, h4⟩
        rcases Nat.lt_or_ge n (m + 1) with h | h
        · omega
        · exfalso
          have hn : n = m + 1 := by omega
          subst hn
          apply hc
          simp only [Bool.and_eq_true, decide_eq_true_eq]
          exact ⟨h3, h4⟩

/-- C6 (amended): is_thame(s) is true iff s is a known root, OR the
last 1 to 4 characters of s match a listed affixable suffix AND s is
strictly longer than the matched suffix, OR s ends in འ with character
length greater than 1.  A syllable that exactly equals a listed suffix
is not thame through the suffix rule (only, possibly, as a root). -/
theorem is_thame_characterization (sc : SylComponents) (syl : String) :
    is_thame sc syl = true
      ↔ (sc.roots.contains syl = true
          ∨ (∃ n : Nat, 1 ≤ n ∧ n ≤ 4 ∧ syl.data.length > n
              ∧ AFFIXABLE_SUFFIXES.contains (lastChars syl n) = true)
          ∨ (syl.data.getLast? = some 'འ' ∧ syl.data.length > 1)) := by
  unfold is_thame
  by_cases h1 : sc.roots.contains syl = true
  · rw [if_pos h1]
    constructor
    · intro _
      exact Or.inl h1
    · intro _
      rfl
  · rw [if_neg h1]
    by_cases h2 : suffixLoop syl 4 = true
    · rw [if_pos h2]
      simp only [true_iff]
      exact Or.inr (Or.inl ((suffixLoop_iff syl 4).mp h2))
    · rw [if_neg h2]
      by_cases h3 : (syl.data.getLast? == some 'འ' && syl.data.length > 1) = true
      · rw [if_pos h3]
        simp only [Bool.and_eq_true, beq_iff_eq, decide_eq_true_eq] at h3
        simp only [true_iff]
        exact Or.inr (Or.inr h3)
      · rw [if_neg h3]
        simp only [Bool.false_eq_true, false_iff]
        rintro (h | h | h)
        · exact h1 h
        · exact h2 ((suffixLoop_iff syl 4).mpr h)
        · apply h3
          simp only [Bool.and_eq_true, beq_iff_eq, decide_eq_true_eq]
          exact h

/-- C6 (counterexample): the single-character syllable ག equals a
listed affixable suffix, but is_thame rejects it (with roots that do
not contain it): the code requires the syllable to be strictly longer
than the matched suffix, while the claim says the length does not
matter. -/
theorem is_thame_equal_length_counterexample :
    AFFIXABLE_SUFFIXES.contains (lastChars "ག" 1) = true
    ∧ lastChars "ག" 1 = "ག"
    ∧ is_thame ⟨sampleRoots⟩ "ག" = false := by
  refine ⟨by decide, by decide, by decide⟩


/-! ## Token post-processing (src/modifiers.rs, src/token.rs) -/

/-- `TSEK` from `syllable.rs`. -/
def TSEK : Char := '་'

/-- `DAGDRA` from `syllable.rs`. -/
def DAGDRA : List String := ["པ་", "པོ་", "བ་", "བོ་"]

/-- `is_dagdra` from `syllable.rs`: append a trailing tsek when absent,
then test membership in the dagdra set. -/
def is_dagdra (text : String) : Bool :=
  let cleaned := if text.data.getLast? == some TSEK then text else text.push TSEK
  DAGDRA.contains cleaned

/-- `syls.join("་")` as used by `Token::text_cleaned` and
`split_token_at_affix`. -/
def joinTsek : List String → String
  | [] => ""
  | [s] => s
  | s :: rest => s ++ "་" ++ joinTsek rest

/-- `Token::text_cleaned`: empty for no syllables, else the syllables
joined by tsek, with a trailing tsek unless the token is an affix host
that is not itself an affix. -/
def Token.text_cleaned (t : Token) : String :=
  if t.syls.isEmpty then ""
  else if t.is_affix_host && !t.is_affix then joinTsek t.syls
  else (joinTsek t.syls).push TSEK

/-- `split_token_at_affix` from `modifiers.rs`. -/
def split_token_at_affix (token : Token) (affix_len : Nat) : Token × Token :=
  let last_syl := token.syls.getLast?.getD ""
  let split_char_idx := last_syl.data.length - affix_len
  let host_syl : String := ⟨last_syl.data.take split_char_idx⟩
  let particle_syl : String := ⟨last_syl.data.drop split_char_idx⟩
  let host_syls := token.syls.dropLast ++ (if host_syl = "" then [] else [host_syl])
  let host_text := joinTsek host_syls
  let host_len := byteLen host_text
  let host := { Token.with_text host_text token.start host_len ChunkType.Text with
    syls := host_syls
    pos := token.pos
    lemma_ := token.lemma_
    freq := token.freq
    is_affix_host := true
    senses := token.senses }
  let particle_text := particle_syl.push TSEK
  let particle := { Token.with_text particle_text (token.start + host_len)
      (byteLen particle_text) ChunkType.Text with
    syls := [particle_syl]
    pos := some "PART"
    is_affix := true }
  (host, particle)

/-- `split_affixed` from `modifiers.rs`: split each token carrying
affixation data (unless some sense has affixed = false, or there are
too few syllables or characters), skipping the freshly inserted
particle. -/
def split_affixed : List Token → List Token
  | [] => []
  | t :: rest =>
    match t.affixation with
    | some aff =>
      if !t.senses.any (fun s => !s.affixed) && t.syls.length > 1
          && (t.syls.getLast?.getD "").data.length ≥ aff.len then
        (split_token_at_affix t aff.len).1 :: (split_token_at_affix t aff.len).2
          :: split_affixed rest
      else t :: split_affixed rest
    | none => t :: split_affixed rest

/-- `merge_two_tokens` from `modifiers.rs`. -/
def merge_two_tokens (first second : Token) : Token :=
  let merged0 := Token.with_text (first.text ++ second.text) first.start
    (first.len + second.len) ChunkType.Text
  let merged1 := { merged0 with
    syls := first.syls ++ second.syls
    pos := first.pos
    freq := first.freq
    has_merged_dagdra := true }
  { merged1 with lemma_ := some merged1.text_cleaned }

/-- The scanning loop of `merge_dagdra`: `cur` is the token at the
current index; when the next token completes a Text/Text dagdra pair
they merge and the merged token is re-checked against the following
token without advancing. -/
def mdRun : Token → List Token → List Token
  | cur, [] => [cur]
  | cur, next :: rest =>
    if cur.chunk_type == ChunkType.Text && next.chunk_type == ChunkType.Text
        && is_dagdra next.text_cleaned then
      mdRun (merge_two_tokens cur next) rest
    else cur :: mdRun next rest

/-- `merge_dagdra` from `modifiers.rs` (lists of length at most one are
returned unchanged). -/
def merge_dagdra : List Token → List Token
  | [] => []
  | [t] => [t]
  | t :: rest => mdRun t rest

/-- `generate_default_lemmas` from `modifiers.rs`. -/
def generate_default_lemmas (tokens : List Token) : List Token :=
  tokens.map (fun t =>
    if t.lemma_.isNone && !t.syls.isEmpty then { t with lemma_ := some t.text_cleaned } else t)

/-- The insertion step of a stable sort by descending frequency: the
new element goes after every element of strictly greater frequency and
before the first of smaller-or-equal frequency, preserving the input
order of equal-frequency senses (Rust `sort_by` is stable). -/
def insertSenseByFreq (x : Sense) : List Sense → List Sense
  | [] => [x]
  | y :: ys =>
    if y.freq.getD 0 > x.freq.getD 0 then y :: insertSenseByFreq x ys else x :: y :: ys

/-- Stable sort of senses by descending `freq` (absent = 0), modelling
`senses.sort_by(|a, b| freq_b.cmp(&freq_a))`. -/
def sortSensesByFreq : List Sense → List Sense
  | [] => []
  | x :: rest => insertSenseByFreq x (sortSensesByFreq rest)

/-- `choose_default_senses` from `modifiers.rs`. -/
def choose_default_senses (tokens : List Token) : List Token :=
  tokens.map (fun t =>
    if t.senses.length > 1 then
      let sorted := sortSensesByFreq t.senses
      let t1 := { t with senses := sorted }
      if t1.pos.isNone then
        match sorted.head? with
        | some best => { t1 with pos := best.pos }
        | none => t1
      else t1
    else t)

/-- `apply_all_modifiers` from `modifiers.rs`. -/
def apply_all_modifiers (tokens : List Token) (split_affixes : Bool) : List Token :=
  let t1 := if split_affixes then split_affixed tokens else tokens
  let t2 := merge_dagdra t1
  let t3 := generate_default_lemmas t2
  choose_default_senses t3


/-! ### Affix split round-trip (C3) -/

theorem joinTsek_cons2 (s a : String) (l : List String) :
    joinTsek (s :: a :: l) = s ++ "་" ++ joinTsek (a :: l) := rfl

theorem joinTsek_append_singleton (l : List String) (x : String) (h : l ≠ []) :
    joinTsek (l ++ [x]) = joinTsek l ++ "་" ++ x := by
  induction l with
  | nil => exact absurd rfl h
  | cons s rest ih =>
    cases rest with
    | nil => rfl
    | cons b bs =>
      rw [List.cons_append, List.cons_append, joinTsek_cons2]
      rw [← List.cons_append, ih (by simp), joinTsek_cons2]
      simp [String.append_assoc]

theorem byteLen_append (a b : String) : byteLen (a ++ b) = byteLen a + byteLen b := by
  unfold byteLen
  rw [String.data_append, byteLenL_append]

/-- C3 (amended): when split_token_at_affix splits a token whose text
is its syllables joined by tsek with a trailing tsek (and whose byte
length matches its text), and the affix is strictly shorter than the
last syllable, the round-trip holds: host.text ++ particle.text equals
the original text, host.start equals the original start, and
particle.start + particle.len equals original.start + original.len. -/
theorem affix_split_roundtrip (token : Token) (affix_len : Nat)
    (hsyls : token.syls.length > 1)
    (hlast : affix_len < (token.syls.getLast?.getD "").data.length)
    (hclean : token.text = (joinTsek token.syls).push TSEK)
    (hlen : token.len = byteLen token.text) :
    (split_token_at_affix token affix_len).1.text
        ++ (split_token_at_affix token affix_len).2.text = token.text
    ∧ (split_token_at_affix token affix_len).1.start = token.start
    ∧ (split_token_at_affix token affix_len).2.start
        + (split_token_at_affix token affix_len).2.len
      = token.start + token.len := by
  have hne : token.syls ≠ [] := by
    intro h
    rw [h] at hsyls
    simp at hsyls
  have hlastq : token.syls.getLast? = some (token.syls.getLast hne) :=
    List.getLast?_eq_getLast token.syls hne
  set last := token.syls.getLast?.getD "" with hlastd
  have hlasteq : last = token.syls.getLast hne := by
    rw [hlastd, hlastq]
    rfl
  have hdecomp : token.syls.dropLast ++ [last] = token.syls := by
    rw [hlasteq]
    exact List.dropLast_append_getLast hne
  have hdrop : token.syls.dropLast ≠ [] := by
    have hlen2 : token.syls.dropLast.length = token.syls.length - 1 :=
      List.length_dropLast _
    intro h
    rw [h] at hlen2
    simp only [List.length_nil] at hlen2
    omega
  set idx := last.data.length - affix_len with hidx
  have hidx1 : 1 ≤ idx := by omega
  have hostne : ¬ (⟨last.data.take idx⟩ : String) = "" := by
    intro h
    have hd : (⟨last.data.take idx⟩ : String).data = [] := by rw [h]
    simp only [List.take_eq_nil_iff] at hd
    rcases hd with hd | hd
    · omega
    · rw [hd] at hlast
      simp at hlast
  have htext : (split_token_at_affix token affix_len).1.text
      = joinTsek (token.syls.dropLast ++ [⟨last.data.take idx⟩]) := by
    unfold split_token_at_affix Token.with_text
    dsimp only
    rw [← hlastd, ← hidx, if_neg hostne]
  have hptext : (split_token_at_affix token affix_len).2.text
      = (⟨last.data.drop idx⟩ : String).push TSEK := by
    unfold split_token_at_affix Token.with_text
    dsimp only
  have hstart : (split_token_at_affix token affix_len).1.start = token.start := by
    unfold split_token_at_affix Token.with_text
    dsimp only
  have hpstart : (split_token_at_affix token affix_len).2.start
      = token.start + byteLen (joinTsek (token.syls.dropLast ++ [⟨last.data.take idx⟩])) := by
    unfold split_token_at_affix Token.with_text
    dsimp only
    rw [← hlastd, ← hidx, if_neg hostne]
  have hplen : (split_token_at_affix token affix_len).2.len
      = byteLen ((⟨last.data.drop idx⟩ : String).push TSEK) := by
    unfold split_token_at_affix Token.with_text
    dsimp only
  have hmain : (split_token_at_affix token affix_len).1.text
      ++ (split_token_at_affix token affix_len).2.text = token.text := by
    rw [htext, hptext, hclean]
    conv_rhs => rw [← hdecomp]
    rw [joinTsek_append_singleton _ _ hdrop]
    rw [joinTsek_append_singleton _ _ hdrop]
    apply String.ext
    simp only [String.data_append, String.data_push]
    have hjoin : List.take idx last.data ++ (List.drop idx last.data ++ [TSEK])
        = last.data ++ [TSEK] := by
      rw [← List.append_assoc, List.take_append_drop]
    simp only [List.append_assoc]
    rw [hjoin]
  refine ⟨hmain, hstart, ?_⟩
  rw [hpstart, hplen]
  have hb : byteLen (joinTsek (token.syls.dropLast ++ [⟨last.data.take idx⟩]))
      + byteLen ((⟨last.data.drop idx⟩ : String).push TSEK) = byteLen token.text := by
    rw [← byteLen_append, ← htext, ← hptext, hmain]
  rw [hlen]
  omega


/-- A clean affixed token (text = syllables joined by tsek, trailing
tsek, byte length consistent) for the C3 witness. -/
def c3TokW : Token :=
  { Token.with_text "ཀ་ཀར་" 0 15 .Text with
    syls := ["ཀ", "ཀར"], affixation := some ⟨1, false⟩ }

/-- C3 (witness): the round-trip theorem applied to a concrete clean
token split at a one-character affix. -/
theorem affix_split_roundtrip_witness :
    (split_token_at_affix c3TokW 1).1.text ++ (split_token_at_affix c3TokW 1).2.text
        = c3TokW.text
    ∧ (split_token_at_affix c3TokW 1).1.start = c3TokW.start
    ∧ (split_token_at_affix c3TokW 1).2.start + (split_token_at_affix c3TokW 1).2.len
        = c3TokW.start + c3TokW.len :=
  affix_split_roundtrip c3TokW 1 (by decide) (by decide) (by decide) (by decide)

/-- A token whose text lacks the trailing tsek, for the C3
counterexample. -/
def c3TokC : Token :=
  { Token.with_text "ཀ་ཀར" 0 12 .Text with
    syls := ["ཀ", "ཀར"], affixation := some ⟨1, false⟩ }

/-- C3 (counterexample): split_affixed does split this token (its text
simply has no trailing tsek, as happens for a match at the end of the
input), but the particle always gets a tsek appended, so
host.text ++ particle.text is one tsek longer than the original text
and particle.start + particle.len overshoots the original end. -/
theorem affix_split_roundtrip_counterexample :
    split_affixed [c3TokC]
        = [(split_token_at_affix c3TokC 1).1, (split_token_at_affix c3TokC 1).2]
    ∧ (split_token_at_affix c3TokC 1).1.text ++ (split_token_at_affix c3TokC 1).2.text
        ≠ c3TokC.text
    ∧ (split_token_at_affix c3TokC 1).2.start + (split_token_at_affix c3TokC 1).2.len
        ≠ c3TokC.start + c3TokC.len := by
  refine ⟨by decide, by decide, by decide⟩


/-! ### Dagdra merge idempotence (C7) -/

/-- The merge condition of the `merge_dagdra` scan. -/
def mergeable (a b : Token) : Bool :=
  a.chunk_type == ChunkType.Text && b.chunk_type == ChunkType.Text
    && is_dagdra b.text_cleaned

/-- No adjacent pair of the list is mergeable. -/
def noMerge : List Token → Bool
  | a :: b :: rest => !mergeable a b && noMerge (b :: rest)
  | _ => true

/-- Number of tseks in a string. -/
def tsekCount (s : String) : Nat := s.data.count TSEK

theorem text_cleaned_push (t : Token) (h1 : t.syls ≠ []) (h2 : t.is_affix_host = false) :
    t.text_cleaned = (joinTsek t.syls).push TSEK := by
  unfold Token.text_cleaned
  rw [if_neg (by simpa using h1), if_neg (by rw [h2]; simp)]

theorem tsekCount_push_tsek (s : String) : tsekCount (s.push TSEK) = tsekCount s + 1 := by
  unfold tsekCount
  rw [String.data_push, List.count_append]
  simp

theorem joinTsek_two_count (syls : List String) (h : 2 ≤ syls.length) :
    1 ≤ tsekCount (joinTsek syls) := by
  cases syls with
  | nil => simp at h
  | cons x rest =>
    cases rest with
    | nil => simp at h
    | cons y t =>
      rw [joinTsek_cons2]
      unfold tsekCount
      rw [String.data_append, String.data_append, List.count_append, List.count_append]
      have : List.count TSEK ("་".data) = 1 := by decide
      omega

theorem joined_two_not_dagdra (syls : List String) (h : 2 ≤ syls.length) :
    is_dagdra ((joinTsek syls).push TSEK) = false := by
  unfold is_dagdra
  have hends : ((joinTsek syls).push TSEK).data.getLast? = some TSEK := by
    rw [String.data_push]
    simp
  rw [if_pos (by rw [hends]; rfl)]
  by_contra hcon
  simp only [Bool.not_eq_false] at hcon
  have hmem : (joinTsek syls).push TSEK ∈ DAGDRA := by
    simpa using hcon
  have hone : ∀ d ∈ DAGDRA, tsekCount d = 1 := by decide
  have h1 := hone _ hmem
  have h2 := tsekCount_push_tsek (joinTsek syls)
  have h3 := joinTsek_two_count syls h
  omega

/-- Head property maintained by the scan: the head of the produced
list is either the current token itself or a merged token extending
its syllables. -/
def headP (cur h : Token) : Prop :=
  h = cur ∨ (h.chunk_type = ChunkType.Text ∧ h.is_affix_host = false
    ∧ cur.chunk_type = ChunkType.Text ∧ ∃ s, s ≠ [] ∧ h.syls = cur.syls ++ s)

theorem merge_two_tokens_fields (a b : Token) :
    (merge_two_tokens a b).syls = a.syls ++ b.syls
    ∧ (merge_two_tokens a b).chunk_type = ChunkType.Text
    ∧ (merge_two_tokens a b).is_affix_host = false := by
  unfold merge_two_tokens Token.with_text
  exact ⟨rfl, rfl, rfl⟩

theorem mergeable_syls_ne (a b : Token) (hm : mergeable a b = true) : b.syls ≠ [] := by
  intro hb
  unfold mergeable at hm
  simp only [Bool.and_eq_true, beq_iff_eq] at hm
  have hd := hm.2
  unfold Token.text_cleaned at hd
  rw [if_pos (by simpa using hb)] at hd
  have : is_dagdra "" = false := by decide
  rw [this] at hd
  simp at hd

theorem mdRun_spec (rest : List Token) :
    ∀ cur : Token,
      (∀ t ∈ cur :: rest, t.chunk_type = ChunkType.Text → t.syls ≠ []) →
      noMerge (mdRun cur rest) = true
        ∧ ∃ h t, mdRun cur rest = h :: t ∧ headP cur h := by
  induction rest with
  | nil =>
    intro cur hall
    exact ⟨rfl, cur, [], rfl, Or.inl rfl⟩
  | cons next rest' ih =>
    intro cur hall
    rw [mdRun]
    by_cases hm : (cur.chunk_type == ChunkType.Text && next.chunk_type == ChunkType.Text
        && is_dagdra next.text_cleaned) = true
    · rw [if_pos hm]
      have hmf := merge_two_tokens_fields cur next
      have hm' : mergeable cur next = true := hm
      simp only [mergeable, Bool.and_eq_true, beq_iff_eq] at hm'
      have hcurne : cur.syls ≠ [] := hall cur (by simp) hm'.1.1
      have hnextne : next.syls ≠ [] := hall next (by simp) hm'.1.2
      have hall' : ∀ t ∈ merge_two_tokens cur next :: rest',
          t.chunk_type = ChunkType.Text → t.syls ≠ [] := by
        intro t ht htt
        rcases List.mem_cons.mp ht with h | h
        · subst h
          rw [hmf.1]
          simp [hcurne]
        · exact hall t (by simp [h]) htt
      obtain ⟨hnm, h, t, heq, hhead⟩ := ih (merge_two_tokens cur next) hall'
      refine ⟨hnm, h, t, heq, ?_⟩
      rcases hhead with hh | ⟨ht1, ht2, ht3, s, hs, hsyl⟩
      · subst hh
        exact Or.inr ⟨hmf.2.1, hmf.2.2, hm'.1.1, next.syls, hnextne, hmf.1⟩
      · refine Or.inr ⟨ht1, ht2, hm'.1.1, next.syls ++ s, by simp [hnextne], ?_⟩
        rw [hsyl, hmf.1, List.append_assoc]
    · rw [if_neg hm]
      have hall' : ∀ t ∈ next :: rest', t.chunk_type = ChunkType.Text → t.syls ≠ [] := by
        intro t ht htt
        exact hall t (by simp [List.mem_cons.mp ht]) htt
      obtain ⟨hnm, h, t, heq, hhead⟩ := ih next hall'
      refine ⟨?_, cur, mdRun next rest', rfl, Or.inl rfl⟩
      rw [heq]
      rw [show noMerge (cur :: h :: t) = (!mergeable cur h && noMerge (h :: t)) from rfl]
      rw [← heq, hnm]
      have hnomergecur : mergeable cur h = false := by
        rcases hhead with hh | ⟨ht1, ht2, ht3, s, hs, hsyl⟩
        · subst hh
          exact Bool.eq_false_iff.mpr hm
        · have hnextne : next.syls ≠ [] := hall next (by simp) ht3
          have hlen2 : 2 ≤ h.syls.length := by
            rw [hsyl]
            rcases List.exists_cons_of_ne_nil hnextne with ⟨y, ys, hy⟩
            rcases List.exists_cons_of_ne_nil hs with ⟨z, zs, hz⟩
            rw [hy, hz]
            simp
            omega
          have hcl := text_cleaned_push h (by
            rw [hsyl]
            simp [hnextne]) ht2
          unfold mergeable
          rw [hcl, joined_two_not_dagdra h.syls hlen2]
          simp
      rw [hnomergecur]
      rfl


theorem mdRun_id (rest : List Token) :
    ∀ cur : Token, noMerge (cur :: rest) = true → mdRun cur rest = cur :: rest := by
  induction rest with
  | nil => intro cur _; rfl
  | cons next rest' ih =>
    intro cur hnm
    rw [show noMerge (cur :: next :: rest') = (!mergeable cur next && noMerge (next :: rest'))
      from rfl] at hnm
    simp only [Bool.and_eq_true, Bool.not_eq_true'] at hnm
    rw [mdRun]
    rw [if_neg (by rw [show (cur.chunk_type == ChunkType.Text && next.chunk_type == ChunkType.Text
      && is_dagdra next.text_cleaned) = mergeable cur next from rfl, hnm.1]; simp)]
    rw [ih next hnm.2]

theorem merge_dagdra_of_noMerge (l : List Token) (h : noMerge l = true) :
    merge_dagdra l = l := by
  cases l with
  | nil => rfl
  | cons a rest =>
    cases rest with
    | nil => rfl
    | cons b rest' =>
      rw [show merge_dagdra (a :: b :: rest') = mdRun a (b :: rest') from rfl]
      exact mdRun_id (b :: rest') a h

/-- C7 (amended): for every token vector in which every Text token has
a nonempty syls list, applying merge_dagdra twice produces the same
vector as applying it once; after one pass no adjacent pair of Text
tokens remains whose second member's cleaned text is in the dagdra
set. -/
theorem merge_dagdra_idempotent (l : List Token)
    (h : ∀ t ∈ l, t.chunk_type = ChunkType.Text → t.syls ≠ []) :
    noMerge (merge_dagdra l) = true
    ∧ merge_dagdra (merge_dagdra l) = merge_dagdra l := by
  cases l with
  | nil => exact ⟨rfl, rfl⟩
  | cons a rest =>
    cases rest with
    | nil => exact ⟨rfl, rfl⟩
    | cons b rest' =>
      have hm := mdRun_spec (b :: rest') a h
      have hnm : noMerge (merge_dagdra (a :: b :: rest')) = true := hm.1
      exact ⟨hnm, merge_dagdra_of_noMerge _ hnm⟩

/-- Text token for the C7 counterexample and witness: one syllable ཀ. -/
def c7T1 : Token := { Token.with_text "ཀ་" 0 6 .Text with syls := ["ཀ"] }

/-- Text token with EMPTY syls for the C7 counterexample. -/
def c7T2 : Token := Token.with_text "x" 6 1 .Text

/-- Dagdra text token for the C7 counterexample and witness. -/
def c7T3 : Token := { Token.with_text "པ་" 7 6 .Text with syls := ["པ"] }

/-- C7 (counterexample): with a Text token whose syls is empty between
a normal token and a dagdra token, one pass merges the empty-syls token
with the dagdra (the merged token's cleaned text is then པ་ itself),
leaving a new mergeable pair that only a second pass merges: running
merge_dagdra twice differs from running it once. -/
theorem merge_dagdra_idempotence_counterexample :
    merge_dagdra (merge_dagdra [c7T1, c7T2, c7T3]) ≠ merge_dagdra [c7T1, c7T2, c7T3] := by
  decide

/-- C7 (witness): the idempotence theorem applied to a concrete vector
whose Text tokens all carry syllables. -/
theorem merge_dagdra_idempotent_witness :
    noMerge (merge_dagdra [c7T1, c7T3]) = true
    ∧ merge_dagdra (merge_dagdra [c7T1, c7T3]) = merge_dagdra [c7T1, c7T3] :=
  merge_dagdra_idempotent [c7T1, c7T3] (by decide)


/-! ## spaces_as_punct (src/tokenizer.rs) -/

/-- The whitespace test of `split_token_on_spaces`
(`c == ' ' || c == '\n' || c == '\t' || c == '\r'`). -/
def isWsChar (c : Char) : Bool := c == ' ' || c == '\n' || c == '\t' || c == '\r'

/-- Rust `str::contains(&str)` (substring containment), used for the
syllable filter. -/
def containsSub (hay needle : String) : Bool :=
  (List.range (hay.data.length + 1)).any (fun i => needle.data.isPrefixOf (hay.data.drop i))

/-- The Text part token emitted by `split_token_on_spaces` for bytes
`a..b` of the original token. -/
def textPart (token : Token) (a b : Nat) : Token :=
  let part_text := sliceBytes token.text a b
  let t0 := Token.with_text part_text (token.start + a) (b - a) ChunkType.Text
  if token.syls.isEmpty then t0
  else { t0 with syls := token.syls.filter (fun s => containsSub part_text s) }

/-- The Punct (whitespace) part token for bytes `a..b`. -/
def spacePart (token : Token) (a b : Nat) : Token :=
  Token.with_text (sliceBytes token.text a b) (token.start + a) (b - a) ChunkType.Punct

/-- The character loop of `split_token_on_spaces`: `i` is the byte
position of the next character, `cs` the current segment start,
`inSp` whether we are inside a whitespace run started at byte `ss`. -/
def stosLoop (token : Token) : List Char → Nat → Nat → Bool → Nat → List Token
  | [], i, cs, inSp, ss =>
    if inSp then [spacePart token ss i]
    else if cs < i then [textPart token cs i]
    else []
  | c :: rest, i, cs, inSp, ss =>
    if isWsChar c && !inSp then
      (if cs < i then [textPart token cs i] else [])
        ++ stosLoop token rest (i + c.utf8Size) cs true i
    else if !isWsChar c && inSp then
      spacePart token ss i :: stosLoop token rest (i + c.utf8Size) i false ss
    else
      stosLoop token rest (i + c.utf8Size) cs inSp ss

/-- `Tokenizer::split_token_on_spaces`. -/
def split_token_on_spaces (token : Token) : List Token :=
  stosLoop token token.text.data 0 0 false 0

/-- `Tokenizer::split_spaces_as_punct`: only Text tokens whose text
contains an ASCII space are split. -/
def split_spaces_as_punct : List Token → List Token
  | [] => []
  | token :: rest =>
    (if token.chunk_type == ChunkType.Text && token.text.data.contains ' ' then
      split_token_on_spaces token
    else [token]) ++ split_spaces_as_punct rest

/-- Whether a run starts with a whitespace character. -/
def headWs (r : List Char) : Bool := ((r.head?).map isWsChar).getD false

/-- Prepend the pending run `p` (of whitespace-kind `mode`) onto a run
decomposition, fusing it with the first run when the kinds agree. -/
def mergeRuns (p : List Char) (runs : List (List Char)) (mode : Bool) : List (List Char) :=
  if p = [] then runs
  else
    match runs with
    | [] => [p]
    | r :: rs => if headWs r == mode then (p ++ r) :: rs else p :: r :: rs

/-- The decomposition of a character list into maximal runs of
whitespace / non-whitespace characters (the claim's specification of
the split). -/
def wsRuns : List Char → List (List Char)
  | [] => []
  | c :: rest => mergeRuns [c] (wsRuns rest) (isWsChar c)

/-- The (text, start, len, type) quadruples the claim prescribes for a
run decomposition laid out from byte offset `p` of the token. -/
def runTokens (token : Token) : List (List Char) → Nat → List (String × Nat × Nat × ChunkType)
  | [], _ => []
  | r :: rs, p =>
    (⟨r⟩, token.start + p, byteLenL r,
      if headWs r then ChunkType.Punct else ChunkType.Text)
      :: runTokens token rs (p + byteLenL r)


theorem byteLenL_pos (c : Char) (l : List Char) : 0 < byteLenL (c :: l) := by
  rw [byteLenL_cons]
  have := Char.utf8Size_pos c
  omega

theorem byteLenL_single (c : Char) : byteLenL [c] = c.utf8Size := by
  rw [byteLenL_cons]
  simp [byteLenL]

theorem sliceBytesAux_drop_tail (T : List Char) : ∀ (p a b : Nat), b ≤ p →
    sliceBytesAux T p a b = [] := by
  induction T with
  | nil => intro p a b _; rfl
  | cons c cs ih =>
    intro p a b hb
    have hsz := Char.utf8Size_pos c
    simp only [sliceBytesAux]
    rw [if_neg (by omega), ih (p + c.utf8Size) a b (by omega)]
    rfl

theorem sliceBytesAux_take_all (R : List Char) : ∀ (T : List Char) (p a : Nat), a ≤ p →
    sliceBytesAux (R ++ T) p a (p + byteLenL R) = R := by
  induction R with
  | nil =>
    intro T p a _
    simp only [List.nil_append, byteLenL]
    exact sliceBytesAux_drop_tail T p a (p + 0) (by omega)
  | cons c cs ih =>
    intro T p a ha
    have hsz := Char.utf8Size_pos c
    simp only [List.cons_append, sliceBytesAux, byteLenL_cons]
    rw [if_pos (by constructor <;> omega)]
    have := ih T (p + c.utf8Size) a (by omega)
    simp only [List.append_eq]
    rw [show p + (c.utf8Size + byteLenL cs) = p + c.utf8Size + byteLenL cs by omega, this]
    rfl

theorem sliceBytesAux_skip (Q : List Char) : ∀ (RT : List Char) (p a b : Nat),
    p + byteLenL Q ≤ a →
    sliceBytesAux (Q ++ RT) p a b = sliceBytesAux RT (p + byteLenL Q) a b := by
  induction Q with
  | nil =>
    intro RT p a b _
    simp [byteLenL]
  | cons c cs ih =>
    intro RT p a b ha
    have hsz := Char.utf8Size_pos c
    rw [byteLenL_cons] at ha ⊢
    simp only [List.cons_append, sliceBytesAux]
    rw [if_neg (by omega)]
    simp only [List.append_eq, List.nil_append]
    rw [ih RT (p + c.utf8Size) a b (by omega)]
    rw [show p + (c.utf8Size + byteLenL cs) = p + c.utf8Size + byteLenL cs by omega]

theorem sliceBytes_exact (s : String) (Q R T : List Char) (h : s.data = Q ++ R ++ T) :
    sliceBytes s (byteLenL Q) (byteLenL Q + byteLenL R) = (⟨R⟩ : String) := by
  unfold sliceBytes
  rw [h]
  have h1 := sliceBytesAux_skip Q (R ++ T) 0 (byteLenL Q) (byteLenL Q + byteLenL R)
    (by omega)
  rw [List.append_assoc, h1, Nat.zero_add]
  rw [sliceBytesAux_take_all R T (byteLenL Q) (byteLenL Q) (by omega)]

theorem mergeRuns_single_head (c : Char) (W : List (List Char)) (m : Bool) :
    ∃ r rs, mergeRuns [c] W m = (c :: r) :: rs := by
  unfold mergeRuns
  rw [if_neg (by simp)]
  match W with
  | [] => exact ⟨[], [], rfl⟩
  | r :: rs =>
    by_cases h : headWs r = m
    · exact ⟨r, rs, by simp [h]⟩
    · refine ⟨[], r :: rs, ?_⟩
      simp only []
      rw [if_neg (by simp [h])]

theorem mergeRuns_nil_left (W : List (List Char)) (m : Bool) :
    mergeRuns [] W m = W := by
  simp [mergeRuns]

theorem mergeRuns_snoc (R : List Char) (c : Char) (W : List (List Char)) (m : Bool)
    (hc : isWsChar c = m) :
    mergeRuns R (mergeRuns [c] W m) m = mergeRuns (R ++ [c]) W m := by
  by_cases hR : R = []
  · subst hR
    rw [mergeRuns_nil_left, List.nil_append]
  · match W with
    | [] => simp [mergeRuns, hR, headWs, hc]
    | r :: rs =>
      by_cases h : headWs r = m
      · simp only [headWs] at h
        simp [mergeRuns, hR, headWs, hc, h]
      · simp only [headWs] at h
        simp [mergeRuns, hR, headWs, hc, h]

theorem headWs_of_forall {R : List Char} {m : Bool} (hne : R ≠ [])
    (hall : ∀ c ∈ R, isWsChar c = m) : headWs R = m := by
  match R with
  | [] => exact absurd rfl hne
  | c :: cs => simp [headWs, hall c (List.mem_cons_self c cs)]


/-- The (text, start, len, type) projection of a token. -/
def tkProj (u : Token) : String × Nat × Nat × ChunkType := (u.text, u.start, u.len, u.chunk_type)

theorem byteLenL_nil : byteLenL [] = 0 := rfl

theorem textPart_proj (token : Token) (a b : Nat) :
    tkProj (textPart token a b)
      = (sliceBytes token.text a b, token.start + a, b - a, ChunkType.Text) := by
  unfold textPart tkProj Token.with_text
  dsimp only
  split <;> rfl

theorem spacePart_proj (token : Token) (a b : Nat) :
    tkProj (spacePart token a b)
      = (sliceBytes token.text a b, token.start + a, b - a, ChunkType.Punct) := rfl

theorem mergeRuns_nil_right (R : List Char) (m : Bool) (hR : R ≠ []) :
    mergeRuns R [] m = [R] := by
  unfold mergeRuns
  rw [if_neg hR]

theorem mergeRuns_cons_ne (R r : List Char) (rs : List (List Char)) (m : Bool)
    (hR : R ≠ []) (h : headWs r ≠ m) :
    mergeRuns R (r :: rs) m = R :: r :: rs := by
  unfold mergeRuns
  rw [if_neg hR]
  dsimp only
  rw [if_neg (by simpa using h)]

theorem stosLoop_runs (token : Token) : ∀ (l Q R : List Char) (inSp : Bool) (cs ss : Nat),
    token.text.data = Q ++ R ++ l →
    (∀ c ∈ R, isWsChar c = inSp) →
    (inSp = true → R ≠ [] ∧ ss = byteLenL Q) →
    (inSp = false → cs = byteLenL Q) →
    (stosLoop token l (byteLenL Q + byteLenL R) cs inSp ss).map tkProj
      = runTokens token (mergeRuns R (wsRuns l) inSp) (byteLenL Q) := by
  intro l
  induction l with
  | nil =>
    intro Q R inSp cs ss hdecomp hall hsp htext
    cases inSp with
    | false =>
      have hcs := htext rfl
      subst hcs
      by_cases hR : R = []
      · subst hR
        simp [stosLoop, mergeRuns_nil_left, wsRuns, runTokens, byteLenL_nil]
      · have hbR : 0 < byteLenL R := by
          match R with
          | c :: cs2 => exact byteLenL_pos c cs2
        have hslice : sliceBytes token.text (byteLenL Q) (byteLenL Q + byteLenL R)
            = (⟨R⟩ : String) := by
          refine sliceBytes_exact token.text Q R [] ?_
          simpa using hdecomp
        simp only [stosLoop, Bool.false_eq_true, if_false]
        rw [if_pos (show byteLenL Q < byteLenL Q + byteLenL R by omega)]
        rw [show wsRuns [] = [] from rfl, mergeRuns_nil_right R false hR]
        simp only [List.map_cons, List.map_nil, runTokens, textPart_proj, hslice,
          Nat.add_sub_cancel_left]
        rw [headWs_of_forall hR hall]
        simp
    | true =>
      obtain ⟨hR, hss⟩ := hsp rfl
      subst hss
      have hslice : sliceBytes token.text (byteLenL Q) (byteLenL Q + byteLenL R)
          = (⟨R⟩ : String) := by
        refine sliceBytes_exact token.text Q R [] ?_
        simpa using hdecomp
      simp only [stosLoop, if_true]
      rw [show wsRuns [] = [] from rfl, mergeRuns_nil_right R true hR]
      simp only [List.map_cons, List.map_nil, runTokens, spacePart_proj, hslice,
        Nat.add_sub_cancel_left]
      rw [headWs_of_forall hR hall]
      simp
  | cons c rest ih =>
    intro Q R inSp cs ss hdecomp hall hsp htext
    have hQR : byteLenL (Q ++ R) = byteLenL Q + byteLenL R := byteLenL_append Q R
    cases hc : isWsChar c with
    | true =>
      cases inSp with
      | false =>
        have hcs := htext rfl
        subst hcs
        have hdecomp2 : token.text.data = (Q ++ R) ++ [c] ++ rest := by
          rw [hdecomp]
          simp
        have ihr := ih (Q ++ R) [c] true (byteLenL Q) (byteLenL Q + byteLenL R)
          (by simpa using hdecomp2)
          (by intro x hx; simp at hx; subst hx; exact hc)
          (by intro _; exact ⟨by simp, hQR.symm⟩)
          (by intro h; exact nomatch h)
        rw [hQR, byteLenL_single] at ihr
        simp only [stosLoop, hc, Bool.not_false, Bool.true_and, if_true]
        rw [show wsRuns (c :: rest) = mergeRuns [c] (wsRuns rest) (isWsChar c) from rfl, hc]
        obtain ⟨r0, rs0, hsingle⟩ := mergeRuns_single_head c (wsRuns rest) true
        by_cases hRe : R = []
        · subst hRe
          rw [mergeRuns_nil_left]
          simp only [byteLenL_nil, Nat.add_zero] at ihr ⊢
          rw [if_neg (show ¬ byteLenL Q < byteLenL Q by omega)]
          simpa using ihr
        · have hbR : 0 < byteLenL R := by
            match R with
            | x :: xs => exact byteLenL_pos x xs
          have hslice : sliceBytes token.text (byteLenL Q) (byteLenL Q + byteLenL R)
              = (⟨R⟩ : String) := by
            refine sliceBytes_exact token.text Q R (c :: rest) ?_
            simpa using hdecomp
          rw [hsingle, mergeRuns_cons_ne R (c :: r0) rs0 false hRe
            (by simp [headWs, hc])]
          rw [if_pos (show byteLenL Q < byteLenL Q + byteLenL R by omega)]
          rw [List.map_append, ihr, hsingle]
          simp only [List.map_cons, List.map_nil, List.singleton_append,
            textPart_proj, hslice, Nat.add_sub_cancel_left, runTokens]
          rw [headWs_of_forall hRe hall]
          simp
      | true =>
        obtain ⟨hRne, hss⟩ := hsp rfl
        subst hss
        have hdecomp2 : token.text.data = Q ++ (R ++ [c]) ++ rest := by
          rw [hdecomp]
          simp
        have ihr := ih Q (R ++ [c]) true cs (byteLenL Q)
          hdecomp2
          (by
            intro x hx
            rcases List.mem_append.mp hx with h1 | h1
            · exact hall x h1
            · simp at h1; subst h1; exact hc)
          (by intro _; exact ⟨by simp, rfl⟩)
          (by intro h; exact nomatch h)
        rw [byteLenL_append R [c], byteLenL_single] at ihr
        simp only [stosLoop, hc, Bool.not_true, Bool.and_false, Bool.false_and,
          Bool.false_eq_true, if_false, Bool.true_and]
        rw [show byteLenL Q + byteLenL R + c.utf8Size
            = byteLenL Q + (byteLenL R + c.utf8Size) by omega]
        rw [show wsRuns (c :: rest) = mergeRuns [c] (wsRuns rest) (isWsChar c) from rfl, hc]
        rw [ihr, mergeRuns_snoc R c (wsRuns rest) true hc]
    | false =>
      cases inSp with
      | false =>
        have hcs := htext rfl
        subst hcs
        have hdecomp2 : token.text.data = Q ++ (R ++ [c]) ++ rest := by
          rw [hdecomp]
          simp
        have ihr := ih Q (R ++ [c]) false (byteLenL Q) ss
          hdecomp2
          (by
            intro x hx
            rcases List.mem_append.mp hx with h1 | h1
            · exact hall x h1
            · simp at h1; subst h1; exact hc)
          (by intro h; exact nomatch h)
          (by intro _; rfl)
        rw [byteLenL_append R [c], byteLenL_single] at ihr
        simp only [stosLoop, hc, Bool.false_and, Bool.and_false, Bool.false_eq_true,
          if_false, Bool.not_false, Bool.and_self]
        rw [show wsRuns (c :: rest) = mergeRuns [c] (wsRuns rest) (isWsChar c) from rfl, hc]
        rw [show byteLenL Q + byteLenL R + c.utf8Size
            = byteLenL Q + (byteLenL R + c.utf8Size) by omega]
        rw [ihr, mergeRuns_snoc R c (wsRuns rest) false hc]
      | true =>
        obtain ⟨hRne, hss⟩ := hsp rfl
        subst hss
        have hbR : 0 < byteLenL R := by
          match R with
          | x :: xs => exact byteLenL_pos x xs
        have hdecomp2 : token.text.data = (Q ++ R) ++ [c] ++ rest := by
          rw [hdecomp]
          simp
        have ihr := ih (Q ++ R) [c] false (byteLenL Q + byteLenL R) (byteLenL Q)
          (by simpa using hdecomp2)
          (by intro x hx; simp at hx; subst hx; exact hc)
          (by intro h; exact nomatch h)
          (by intro _; exact hQR.symm)
        rw [hQR, byteLenL_single] at ihr
        simp only [stosLoop, hc, Bool.false_and, Bool.false_eq_true, if_false,
          Bool.not_false, Bool.true_and, if_true]
        rw [show wsRuns (c :: rest) = mergeRuns [c] (wsRuns rest) (isWsChar c) from rfl, hc]
        obtain ⟨r0, rs0, hsingle⟩ := mergeRuns_single_head c (wsRuns rest) false
        rw [hsingle, mergeRuns_cons_ne R (c :: r0) rs0 true hRne
          (by simp [headWs, hc])]
        have hslice : sliceBytes token.text (byteLenL Q) (byteLenL Q + byteLenL R)
            = (⟨R⟩ : String) := by
          refine sliceBytes_exact token.text Q R (c :: rest) ?_
          simpa using hdecomp
        simp only [List.map_cons]
        rw [ihr, hsingle]
        simp only [runTokens, spacePart_proj, hslice, Nat.add_sub_cancel_left]
        rw [headWs_of_forall hRne hall]
        simp

theorem split_token_on_spaces_runs (token : Token) :
    (split_token_on_spaces token).map tkProj = runTokens token (wsRuns token.text.data) 0 := by
  have h := stosLoop_runs token token.text.data [] [] false 0 0
    (by simp) (by intro c hc; simp at hc) (by intro h; exact nomatch h) (by intro _; rfl)
  rw [mergeRuns_nil_left] at h
  simpa [split_token_on_spaces, byteLenL_nil] using h

/-- **C8** (corrected): the claim as stated is false because
`split_spaces_as_punct` only splits Text tokens whose text contains an
ASCII space (`text.contains(' ')`), so a Text token containing only
tab, CR, or LF whitespace passes through unsplit.  Amended property:
the output of `split_spaces_as_punct`, projected to
(text, start, len, chunk_type), replaces every Text token containing
an ASCII space by the decomposition of its text into maximal
whitespace / non-whitespace runs — each whitespace run becoming a
Punct token whose text is exactly the run, each non-whitespace
segment a Text token, laid out contiguously from the token's start —
and leaves every other token unchanged. -/
theorem spaces_as_punct_splitting (tokens : List Token) :
    (split_spaces_as_punct tokens).map tkProj
      = (tokens.map (fun token =>
          if token.chunk_type == ChunkType.Text && token.text.data.contains ' ' then
            runTokens token (wsRuns token.text.data) 0
          else [tkProj token])).join := by
  induction tokens with
  | nil => rfl
  | cons t rest ih =>
    simp only [split_spaces_as_punct, List.map_cons, List.join_cons, List.map_append, ih]
    congr 1
    by_cases h : (t.chunk_type == ChunkType.Text && t.text.data.contains ' ') = true
    · rw [if_pos h, if_pos h]
      exact split_token_on_spaces_runs t
    · rw [if_neg h, if_neg h]
      rfl

/-- A Text token whose only inner whitespace is a tab. -/
def c8Tok : Token := Token.with_text "a\tb" 0 3 ChunkType.Text

/-- **C8** counterexample: a Text token containing a tab (one of the
four whitespace characters) but no ASCII space is returned unchanged
by `split_spaces_as_punct`, not split into the maximal-run
decomposition (Text "a", Punct "\t", Text "b") the claim requires. -/
theorem spaces_as_punct_counterexample :
    c8Tok.chunk_type = ChunkType.Text
    ∧ isWsChar '\t' = true
    ∧ c8Tok.text.data.contains '\t' = true
    ∧ split_spaces_as_punct [c8Tok] = [c8Tok]
    ∧ (split_spaces_as_punct [c8Tok]).map tkProj
        ≠ runTokens c8Tok (wsRuns c8Tok.text.data) 0 := by
  decide


/-! ### Determinism of the full pipeline (C10) -/

/-- `Tokenizer::tokenize_with_full_options`: NFC-normalize, chunk,
tokenize against the trie, optionally split space-containing tokens,
then apply the modifier pipeline.  The NFC normalization is performed
by the external `unicode-normalization` crate, so it enters the model
as an arbitrary function parameter `nfc`; every claim proved about the
pipeline holds for any such function. -/
def tokenize_with_full_options (trie : Trie) (nfc : String → String) (text : String)
    (split_affixes spaces_as_punct : Bool) : List Token :=
  let normalized := nfc text
  let chunks := make_chunks normalized
  let tokens := tokenize_chunks trie chunks normalized
  let tokens2 := if spaces_as_punct then split_spaces_as_punct tokens else tokens
  apply_all_modifiers tokens2 split_affixes

/-- The sort key of `choose_default_senses`: `freq.unwrap_or(0)`. -/
def freqD (s : Sense) : Nat := s.freq.getD 0

theorem mem_insertSenseByFreq {a x : Sense} : ∀ {l : List Sense},
    a ∈ insertSenseByFreq x l → a = x ∨ a ∈ l := by
  intro l
  induction l with
  | nil =>
    intro h
    simp [insertSenseByFreq] at h
    exact Or.inl h
  | cons y ys ih =>
    intro h
    unfold insertSenseByFreq at h
    by_cases hgt : y.freq.getD 0 > x.freq.getD 0
    · rw [if_pos hgt] at h
      rcases List.mem_cons.mp h with h1 | h1
      · exact Or.inr (by simp [h1])
      · rcases ih h1 with h2 | h2
        · exact Or.inl h2
        · exact Or.inr (List.mem_cons_of_mem y h2)
    · rw [if_neg hgt] at h
      rcases List.mem_cons.mp h with h1 | h1
      · exact Or.inl h1
      · exact Or.inr h1

theorem pairwise_insertSenseByFreq (x : Sense) : ∀ (l : List Sense),
    l.Pairwise (fun a b => freqD b ≤ freqD a) →
    (insertSenseByFreq x l).Pairwise (fun a b => freqD b ≤ freqD a) := by
  intro l
  induction l with
  | nil =>
    intro _
    simp [insertSenseByFreq]
  | cons y ys ih =>
    intro h
    rcases List.pairwise_cons.mp h with ⟨hy, hys⟩
    unfold insertSenseByFreq
    by_cases hgt : y.freq.getD 0 > x.freq.getD 0
    · rw [if_pos hgt]
      refine List.pairwise_cons.mpr ⟨?_, ih hys⟩
      intro a ha
      rcases mem_insertSenseByFreq ha with h1 | h1
      · subst h1
        unfold freqD
        omega
      · exact hy a h1
    · rw [if_neg hgt]
      refine List.pairwise_cons.mpr ⟨?_, h⟩
      intro a ha
      rcases List.mem_cons.mp ha with h1 | h1
      · subst h1
        unfold freqD
        omega
      · have := hy a h1
        unfold freqD at *
        omega

theorem filter_insertSenseByFreq (x : Sense) (v : Nat) : ∀ (l : List Sense),
    (insertSenseByFreq x l).filter (fun s => freqD s == v)
      = if freqD x == v then x :: l.filter (fun s => freqD s == v)
        else l.filter (fun s => freqD s == v) := by
  intro l
  induction l with
  | nil =>
    by_cases hx : (freqD x == v) = true
    · simp [insertSenseByFreq, hx]
    · simp [insertSenseByFreq, hx]
  | cons y ys ih =>
    unfold insertSenseByFreq
    by_cases hgt : y.freq.getD 0 > x.freq.getD 0
    · rw [if_pos hgt]
      by_cases hx : (freqD x == v) = true
      · have hxv : freqD x = v := by simpa using hx
        have hyv : freqD y ≠ v := by
          unfold freqD at hxv ⊢
          omega
        simp [List.filter_cons, hyv, ih, hxv]
      · have hxv : freqD x ≠ v := by simpa using hx
        simp [List.filter_cons, ih, hxv]
    · rw [if_neg hgt]
      by_cases hx : (freqD x == v) = true
      · have hxv : freqD x = v := by simpa using hx
        simp [List.filter_cons, hxv]
      · have hxv : freqD x ≠ v := by simpa using hx
        simp [List.filter_cons, hxv]

theorem filter_sortSensesByFreq (v : Nat) : ∀ (l : List Sense),
    (sortSensesByFreq l).filter (fun s => freqD s == v)
      = l.filter (fun s => freqD s == v) := by
  intro l
  induction l with
  | nil => rfl
  | cons x rest ih =>
    unfold sortSensesByFreq
    rw [filter_insertSenseByFreq x v (sortSensesByFreq rest)]
    by_cases hx : freqD x == v
    · rw [if_pos hx, ih]
      simp [List.filter_cons, hx]
    · rw [if_neg hx, ih]
      simp [List.filter_cons, Bool.of_not_eq_true hx]

theorem pairwise_sortSensesByFreq : ∀ (l : List Sense),
    (sortSensesByFreq l).Pairwise (fun a b => freqD b ≤ freqD a) := by
  intro l
  induction l with
  | nil => simp [sortSensesByFreq]
  | cons x rest ih => exact pairwise_insertSenseByFreq x (sortSensesByFreq rest) ih

/-- **C10**: for a fixed trie, normalization function, input string and
option flags, `tokenize_with_full_options` is deterministic (the model
is a pure function, so two invocations agree definitionally), and the
frequency sort applied by `choose_default_senses` to a token's senses
is the stable descending sort: for every token it replaces a
multi-sense list by `sortSensesByFreq` of it, whose output is sorted
by descending `freq.unwrap_or(0)` and, restricted to any single
frequency value, preserves the input order of the senses — so the
resulting sense ordering is uniquely determined by the input. -/
theorem tokenization_deterministic (trie : Trie) (nfc : String → String) (text : String)
    (sa sp : Bool) (senses : List Sense) :
    tokenize_with_full_options trie nfc text sa sp
        = tokenize_with_full_options trie nfc text sa sp
    ∧ (∀ t : Token, (choose_default_senses [t]).map Token.senses
        = [if t.senses.length > 1 then sortSensesByFreq t.senses else t.senses])
    ∧ (sortSensesByFreq senses).Pairwise (fun a b => freqD b ≤ freqD a)
    ∧ (∀ v : Nat, (sortSensesByFreq senses).filter (fun s => freqD s == v)
        = senses.filter (fun s => freqD s == v)) := by
  refine ⟨rfl, ?_, pairwise_sortSensesByFreq senses, fun v => filter_sortSensesByFreq v senses⟩
  intro t
  unfold choose_default_senses
  simp only [List.map_cons, List.map_nil]
  by_cases hlen : t.senses.length > 1
  · rw [if_pos hlen, if_pos hlen]
    cases h : (sortSensesByFreq t.senses).head? <;>
      by_cases hpos : t.pos.isNone = true <;>
        simp [h, hpos]
  · rw [if_neg hlen, if_neg hlen]


end Botok
